import Mathlib

/-!
Verification of the go-queue repository: a generic deque (`deque.Deque`),
a doubly-linked list (`dll.List`) and a heap-based priority queue
(`priorityqueue.PriorityQueue` built on Go's `container/heap`).

The Go code is shallowly embedded:
* slices become `List`s;
* `(T, bool)` results where the `bool` signals presence become `Option T`
  (`none` is the `(zero, false)` return, `some v` is `(v, true)`);
* heap-allocated objects reached through pointers (`*Item[T]`, `*Node[T]`)
  live in an append-only arena (a `List` of records); a pointer is the
  arena position (`Nat`) of the object, so aliasing and field mutation
  through a handle are modelled faithfully;
* Go `int` fields that can hold `-1` sentinels are `Int`.
-/

namespace GoQueue

/-! ## deque.Deque

Translated from `deque/deque.go`.  `Deque[T]` wraps a slice `items []T`. -/

structure Deque (T : Type) where
  items : List T
deriving Repr, DecidableEq

namespace Deque

variable {T : Type}

/-- Translates `deque.New`: an empty deque. -/
def new : Deque T := ⟨[]⟩

/-- Translates `Deque.PushBack`: `d.items = append(d.items, item)`. -/
def pushBack (d : Deque T) (x : T) : Deque T := ⟨d.items ++ [x]⟩

/-- Translates `Deque.PopBack`: empty check, read the last slot, truncate. -/
def popBack (d : Deque T) : Option T × Deque T :=
  if d.items.length = 0 then (none, d)
  else
    let last := d.items.length - 1
    (d.items[last]?, ⟨d.items.take last⟩)

/-- Translates `Deque.PushFront`: `d.items = append([]T{item}, d.items...)`. -/
def pushFront (d : Deque T) (x : T) : Deque T := ⟨x :: d.items⟩

/-- Translates `Deque.PopFront`: empty check, read slot `0`, slice off the head. -/
def popFront (d : Deque T) : Option T × Deque T :=
  if d.items.length = 0 then (none, d)
  else (d.items[0]?, ⟨d.items.drop 1⟩)

/-- Translates `Deque.PeekFront`. -/
def peekFront (d : Deque T) : Option T × Deque T :=
  if d.items.length = 0 then (none, d) else (d.items[0]?, d)

/-- Translates `Deque.PeekBack`. -/
def peekBack (d : Deque T) : Option T × Deque T :=
  if d.items.length = 0 then (none, d) else (d.items[d.items.length - 1]?, d)

/-- Translates `Deque.Push`, which delegates to `PushBack`. -/
def push (d : Deque T) (x : T) : Deque T := d.pushBack x

/-- Translates `Deque.Pop`, which delegates to `PopBack`. -/
def pop (d : Deque T) : Option T × Deque T := d.popBack

/-- Translates `Deque.Peek`, which delegates to `PeekBack`. -/
def peek (d : Deque T) : Option T × Deque T := d.peekBack

/-- Translates `Deque.Len`. -/
def len (d : Deque T) : Nat := d.items.length

/-- Translates `Deque.IsEmpty`. -/
def isEmpty (d : Deque T) : Bool := d.items.length = 0

/-- Pushes a whole sequence with `PushBack`, front to back. -/
def pushAll (d : Deque T) (xs : List T) : Deque T := xs.foldl pushBack d

/-- Calls `PopFront` `n` times, collecting each `(value, found)` result. -/
def drainFront {T : Type} : Nat → Deque T → List (Option T)
  | 0, _ => []
  | n + 1, d =>
    let r := d.popFront
    r.1 :: drainFront n r.2

/-- Calls `PopBack` `n` times, collecting each `(value, found)` result. -/
def drainBack {T : Type} : Nat → Deque T → List (Option T)
  | 0, _ => []
  | n + 1, d =>
    let r := d.popBack
    r.1 :: drainBack n r.2

theorem pushAll_new (xs : List T) : (pushAll (new (T := T)) xs).items = xs := by
  suffices h : ∀ d : Deque T, (pushAll d xs).items = d.items ++ xs by
    simpa using h new
  induction xs with
  | nil => intro d; simp [pushAll]
  | cons x xs ih =>
      intro d
      simpa [pushAll, pushBack, List.foldl_cons] using ih ⟨d.items ++ [x]⟩

theorem drainFront_all (xs : List T) :
    drainFront xs.length ⟨xs⟩ = xs.map some := by
  induction xs with
  | nil => simp [drainFront]
  | cons x xs ih =>
      simp [drainFront, popFront, ih]

theorem drainBack_all (xs : List T) :
    drainBack xs.length ⟨xs⟩ = xs.reverse.map some := by
  induction xs using List.reverseRecOn with
  | nil => simp [drainBack]
  | append_singleton xs x ih =>
      have hlen : (xs ++ [x]).length = xs.length + 1 := by simp
      have hget : (xs ++ [x])[(xs ++ [x]).length - 1]? = some x := by
        simp
      have htake : (xs ++ [x]).take ((xs ++ [x]).length - 1) = xs := by
        simp
      simp only [hlen, drainBack, popBack]
      rw [if_neg (by simp)]
      simp only [hlen, Nat.add_sub_cancel] at hget htake ⊢
      rw [hget, htake, ih]
      simp

end Deque

end GoQueue

namespace GoQueue

/-! ## dll.List

Translated from the `dll` package (doubly-linked list).  Nodes are
heap-allocated Go objects reached via pointers; here they live in the
append-only arena `nodes`, and a `*Node[T]` is an `Option Nat`: `none` is
the nil pointer, `some id` points at arena slot `id`.  `Node.prev` and
`Node.next` are likewise `Option Nat`. -/

structure DllNode (T : Type) where
  value : T
  prev : Option Nat
  next : Option Nat
deriving Repr, DecidableEq

structure DllList (T : Type) where
  nodes : List (DllNode T)
  head : Option Nat
  tail : Option Nat
  len : Nat
deriving Repr, DecidableEq

namespace DllList

variable {T : Type}

/-- Translates `dll.New`: empty list (and an empty arena). -/
def new : DllList T := ⟨[], none, none, 0⟩

/-- Arena update writing the `prev` field of the node in slot `i`
(a no-op on an out-of-arena slot, which no handle of this model reaches). -/
def setPrev (nodes : List (DllNode T)) (i : Nat) (p : Option Nat) : List (DllNode T) :=
  match nodes[i]? with
  | some nd => nodes.set i { nd with prev := p }
  | none => nodes

/-- Arena update writing the `next` field of the node in slot `i`. -/
def setNext (nodes : List (DllNode T)) (i : Nat) (p : Option Nat) : List (DllNode T) :=
  match nodes[i]? with
  | some nd => nodes.set i { nd with next := p }
  | none => nodes

/-- Translates `List.PushFront`; returns the new state and the handle of the
freshly allocated node (`n := &Node[T]{Value: v}`, appended to the arena). -/
def pushFront (l : DllList T) (v : T) : DllList T × Nat :=
  let id := l.nodes.length
  match l.head with
  | none =>
      (⟨l.nodes ++ [⟨v, none, none⟩], some id, some id, l.len + 1⟩, id)
  | some h =>
      let nodes1 := l.nodes ++ [⟨v, none, some h⟩]
      (⟨setPrev nodes1 h (some id), some id, l.tail, l.len + 1⟩, id)

/-- Translates `List.PushBack`. -/
def pushBack (l : DllList T) (v : T) : DllList T × Nat :=
  let id := l.nodes.length
  match l.tail with
  | none =>
      (⟨l.nodes ++ [⟨v, none, none⟩], some id, some id, l.len + 1⟩, id)
  | some t =>
      let nodes1 := l.nodes ++ [⟨v, some t, none⟩]
      (⟨setNext nodes1 t (some id), l.head, some id, l.len + 1⟩, id)

/-- Translates `List.Remove`.  The Go function returns only a value (the
zero value of `T` on the `n == nil || l.len == 0` paths), modelled as
`Option T`: `none` stands for that zero-value return.  Field reads of `n`
happen before any mutation, exactly as in the source. -/
def remove (l : DllList T) (n : Option Nat) : Option T × DllList T :=
  match n with
  | none => (none, l)
  | some id =>
    if l.len = 0 then (none, l)
    else
      match l.nodes[id]? with
      | none => (none, l)
      | some nd =>
        let l1 : DllList T :=
          match nd.prev with
          | some p => { l with nodes := setNext l.nodes p nd.next }
          | none => { l with head := nd.next }
        let l2 : DllList T :=
          match nd.next with
          | some nx => { l1 with nodes := setPrev l1.nodes nx nd.prev }
          | none => { l1 with tail := nd.prev }
        let l3 : DllList T :=
          { l2 with nodes := setPrev (setNext l2.nodes id none) id none,
                    len := l2.len - 1 }
        (some nd.value, l3)

/-- Translates `List.MoveToFront`: no-op when `n == nil`, `n == l.head` or
`l.len < 2`; otherwise `l.Remove(n)` followed by `l.PushFront(n.Value)`
(which allocates a fresh node; the handle returned by `PushFront` is
discarded by the Go code).  `n.Value` is unchanged by `Remove`, so it is
read from the pre-removal record. -/
def moveToFront (l : DllList T) (n : Option Nat) : DllList T :=
  match n with
  | none => l
  | some id =>
    if l.head = some id ∨ l.len < 2 then l
    else
      match l.nodes[id]? with
      | none => l
      | some nd => (pushFront (remove l (some id)).2 nd.value).1

/-- Translates `List.MoveToBack`. -/
def moveToBack (l : DllList T) (n : Option Nat) : DllList T :=
  match n with
  | none => l
  | some id =>
    if l.tail = some id ∨ l.len < 2 then l
    else
      match l.nodes[id]? with
      | none => l
      | some nd => (pushBack (remove l (some id)).2 nd.value).1

/-- Walks `next` links from `cur`, collecting values.  The Go loop
`for e := l.head; e != nil; e = e.next` is unbounded; the walk is cut off
by fuel `l.len`, which on every link-consistent state is exactly the
number of reachable nodes. -/
def toSliceAux (l : DllList T) : Nat → Option Nat → List T
  | 0, _ => []
  | _, none => []
  | fuel + 1, some id =>
    match l.nodes[id]? with
    | none => []
    | some nd => nd.value :: toSliceAux l fuel nd.next

/-- Translates `List.ToSlice`. -/
def toSlice (l : DllList T) : List T := toSliceAux l l.len l.head

/-- Same walk as `toSlice` but collecting the node handles: the nodes that
are currently live members of the list. -/
def liveIdsAux (l : DllList T) : Nat → Option Nat → List Nat
  | 0, _ => []
  | _, none => []
  | fuel + 1, some id =>
    match l.nodes[id]? with
    | none => []
    | some nd => id :: liveIdsAux l fuel nd.next

/-- The handles of the nodes currently linked into the list. -/
def liveIds (l : DllList T) : List Nat := liveIdsAux l l.len l.head

/-- Translates the link-clearing loop of `List.Clear` (each chain node has
`prev`/`next` set to nil; `e.next` is read before being cleared). -/
def clearLoop (l : DllList T) : Nat → Option Nat → List (DllNode T)
  | 0, _ => l.nodes
  | _, none => l.nodes
  | fuel + 1, some id =>
    match l.nodes[id]? with
    | none => l.nodes
    | some nd =>
      clearLoop { l with nodes := setPrev (setNext l.nodes id none) id none } fuel nd.next

/-- Translates `List.Clear`. -/
def clear (l : DllList T) : DllList T :=
  ⟨clearLoop l l.len l.head, none, none, 0⟩

/-- Translates `List.FromSlice`: `Clear` then `PushBack` each element. -/
def fromSlice (l : DllList T) (s : List T) : DllList T :=
  s.foldl (fun acc v => (pushBack acc v).1) (clear l)

/-- Value stored at arena slot `id` (`default` on an absent slot; the
`value` field of a node is never mutated by any list operation). -/
def valueD [Inhabited T] (l : DllList T) (id : Nat) : T :=
  ((l.nodes[id]?).map DllNode.value).getD default

/-- The pointer to the first node of a segment, or the given continuation
pointer when the segment is empty. -/
def headOr (ids : List Nat) (k : Option Nat) : Option Nat :=
  match ids with
  | [] => k
  | a :: _ => some a

/-- The pointer to the last node of a segment, or the given predecessor
pointer when the segment is empty. -/
def lastOr (ids : List Nat) (pr : Option Nat) : Option Nat :=
  match ids.getLast? with
  | some a => some a
  | none => pr

/-- Link-consistency of a segment of handles: walking `ids` in order, each
node's `prev` points at its predecessor (`pr` before the first) and its
`next` points at its successor (`k` after the last). -/
def segOk (nodes : List (DllNode T)) : Option Nat → List Nat → Option Nat → Bool
  | _, [], _ => true
  | pr, id :: rest, k =>
    match nodes[id]? with
    | none => false
    | some nd =>
      decide (nd.prev = pr) && decide (nd.next = headOr rest k) &&
        segOk nodes (some id) rest k

/-- Representation invariant of the doubly-linked list: `ids` is the exact
sequence of live nodes, `head`/`tail`/`len` agree with it, handles are
distinct arena slots, and the `prev`/`next` links spell out `ids`. -/
def spineOk (l : DllList T) (ids : List Nat) : Prop :=
  l.len = ids.length ∧ l.head = headOr ids none ∧ l.tail = lastOr ids none ∧
    ids.Nodup ∧ (∀ id ∈ ids, id < l.nodes.length) ∧
    segOk l.nodes none ids none = true

instance (l : DllList T) (ids : List Nat) : Decidable (spineOk l ids) := by
  unfold spineOk; infer_instance

theorem length_setPrev (nodes : List (DllNode T)) (i : Nat) (p : Option Nat) :
    (setPrev nodes i p).length = nodes.length := by
  unfold setPrev; cases h : nodes[i]? <;> simp

theorem length_setNext (nodes : List (DllNode T)) (i : Nat) (p : Option Nat) :
    (setNext nodes i p).length = nodes.length := by
  unfold setNext; cases h : nodes[i]? <;> simp

theorem getElem?_setPrev_ne (nodes : List (DllNode T)) (i : Nat) (p : Option Nat)
    {j : Nat} (h : j ≠ i) : (setPrev nodes i p)[j]? = nodes[j]? := by
  unfold setPrev
  cases h2 : nodes[i]? with
  | none => rfl
  | some nd => rw [List.getElem?_set_ne (by omega)]

theorem getElem?_setNext_ne (nodes : List (DllNode T)) (i : Nat) (p : Option Nat)
    {j : Nat} (h : j ≠ i) : (setNext nodes i p)[j]? = nodes[j]? := by
  unfold setNext
  cases h2 : nodes[i]? with
  | none => rfl
  | some nd => rw [List.getElem?_set_ne (by omega)]

theorem getElem?_setPrev_self (nodes : List (DllNode T)) (i : Nat) (p : Option Nat)
    {nd : DllNode T} (h : nodes[i]? = some nd) :
    (setPrev nodes i p)[i]? = some { nd with prev := p } := by
  unfold setPrev
  rw [h, List.getElem?_set_eq_of_lt]
  exact (List.getElem?_eq_some.mp h).1

theorem getElem?_setNext_self (nodes : List (DllNode T)) (i : Nat) (p : Option Nat)
    {nd : DllNode T} (h : nodes[i]? = some nd) :
    (setNext nodes i p)[i]? = some { nd with next := p } := by
  unfold setNext
  rw [h, List.getElem?_set_eq_of_lt]
  exact (List.getElem?_eq_some.mp h).1

theorem segOk_congr {nodes nodes2 : List (DllNode T)} :
    ∀ (pr : Option Nat) (ids : List Nat) (k : Option Nat),
      (∀ id ∈ ids, nodes2[id]? = nodes[id]?) →
      segOk nodes2 pr ids k = segOk nodes pr ids k := by
  intro pr ids
  induction ids generalizing pr with
  | nil => intro k _; rfl
  | cons a rest ih =>
      intro k hagree
      unfold segOk
      rw [hagree a (by simp)]
      cases nodes[a]? with
      | none => rfl
      | some nd => rw [ih (some a) k (fun id hid => hagree id (by simp [hid]))]

theorem segOk_append {nodes : List (DllNode T)} :
    ∀ (xs ys : List Nat) (pr k : Option Nat),
      segOk nodes pr (xs ++ ys) k =
        (segOk nodes pr xs (headOr ys k) && segOk nodes (lastOr xs pr) ys k) := by
  intro xs
  induction xs with
  | nil => intro ys pr k; simp [segOk, lastOr]
  | cons a rest ih =>
      intro ys pr k
      have hhead : headOr (rest ++ ys) k = headOr rest (headOr ys k) := by
        cases rest <;> simp [headOr]
      have hlast : lastOr (a :: rest) pr = lastOr rest (some a) := by
        unfold lastOr
        cases hr : rest.getLast? with
        | none =>
            have : rest = [] := List.getLast?_eq_none_iff.mp hr
            subst this; simp [List.getLast?]
        | some b =>
            cases rest with
            | nil => simp [List.getLast?] at hr
            | cons c cs => rw [List.getLast?_cons_cons, hr]
      cases h : nodes[a]? with
      | none => simp [segOk, h]
      | some nd =>
          simp only [List.cons_append, segOk, h, List.append_eq]
          rw [ih ys (some a) k]
          simp only [hhead, hlast]
          cases (decide (nd.prev = pr)) <;>
            cases (decide (nd.next = headOr rest (headOr ys k))) <;> simp

theorem headOr_append (xs ys : List Nat) (k : Option Nat) :
    headOr (xs ++ ys) k = headOr xs (headOr ys k) := by
  cases xs <;> simp [headOr]

theorem headOr_append_ne {as : List Nat} (xs : List Nat) (k k2 : Option Nat)
    (h : as ≠ []) : headOr (as ++ xs) k = headOr as k2 := by
  cases as with
  | nil => exact absurd rfl h
  | cons a as2 => rfl

theorem lastOr_append (xs ys : List Nat) (pr : Option Nat) :
    lastOr (xs ++ ys) pr = lastOr ys (lastOr xs pr) := by
  unfold lastOr
  cases hy : ys.getLast? with
  | some b =>
      rw [List.getLast?_append_of_ne_nil, hy]
      intro h; subst h; simp [List.getLast?] at hy
  | none =>
      have : ys = [] := List.getLast?_eq_none_iff.mp hy
      subst this
      simp

theorem lastOr_cons_cons (a b : Nat) (l : List Nat) (pr : Option Nat) :
    lastOr (a :: b :: l) pr = lastOr (b :: l) pr := by
  unfold lastOr
  rw [List.getLast?_cons_cons]

theorem valueD_setPrev [Inhabited T] (nodes : List (DllNode T)) (i : Nat)
    (p : Option Nat) (hd t : Option Nat) (n j : Nat) :
    valueD ⟨setPrev nodes i p, hd, t, n⟩ j = valueD ⟨nodes, hd, t, n⟩ j := by
  unfold valueD setPrev
  cases h : nodes[i]? with
  | none => rfl
  | some nd =>
      by_cases hij : j = i
      · subst hij
        simp only
        rw [List.getElem?_set_eq_of_lt _ (List.getElem?_eq_some.mp h).1, h]
        rfl
      · simp only
        rw [List.getElem?_set_ne (by omega)]

theorem valueD_setNext [Inhabited T] (nodes : List (DllNode T)) (i : Nat)
    (p : Option Nat) (hd t : Option Nat) (n j : Nat) :
    valueD ⟨setNext nodes i p, hd, t, n⟩ j = valueD ⟨nodes, hd, t, n⟩ j := by
  unfold valueD setNext
  cases h : nodes[i]? with
  | none => rfl
  | some nd =>
      by_cases hij : j = i
      · subst hij
        simp only
        rw [List.getElem?_set_eq_of_lt _ (List.getElem?_eq_some.mp h).1, h]
        rfl
      · simp only
        rw [List.getElem?_set_ne (by omega)]

theorem mem_of_getLast?_eq {l : List Nat} {a : Nat} (h : l.getLast? = some a) :
    a ∈ l := by
  have hm : a ∈ l.getLast? := by simp [Option.mem_def, h]
  rcases List.mem_getLast?_eq_getLast hm with ⟨hne, rfl⟩
  exact List.getLast_mem hne

theorem segOk_some {nodes : List (DllNode T)} :
    ∀ {ids : List Nat} {pr k : Option Nat} {id : Nat},
      segOk nodes pr ids k = true → id ∈ ids → ∃ nd, nodes[id]? = some nd := by
  intro ids
  induction ids with
  | nil => intro _ _ _ _ h; simp at h
  | cons a rest ih =>
      intro pr k id hseg hmem
      unfold segOk at hseg
      cases h : nodes[a]? with
      | none => rw [h] at hseg; simp at hseg
      | some nd =>
          rw [h] at hseg
          simp only [Bool.and_eq_true] at hseg
          rcases List.mem_cons.mp hmem with rfl | hm
          · exact ⟨nd, h⟩
          · exact ih hseg.2 hm

/-- Retargeting the `next` expectation of a segment: only the last node's
`next` field differs. -/
theorem segOk_last_next {nodes NN : List (DllNode T)} :
    ∀ (as : List Nat) (pr oldk newk : Option Nat) (pl : Nat),
      as.getLast? = some pl → as.Nodup →
      segOk nodes pr as oldk = true →
      (∀ j ∈ as, j ≠ pl → NN[j]? = nodes[j]?) →
      (∀ nd, nodes[pl]? = some nd → NN[pl]? = some { nd with next := newk }) →
      segOk NN pr as newk = true := by
  intro as
  induction as with
  | nil => intro _ _ _ _ h; simp [List.getLast?] at h
  | cons a rest ih =>
      intro pr oldk newk pl hlast hnd hseg hagree hpl
      unfold segOk at hseg ⊢
      cases h : nodes[a]? with
      | none => rw [h] at hseg; simp at hseg
      | some nd =>
          rw [h] at hseg
          simp only [Bool.and_eq_true, decide_eq_true_eq] at hseg
          obtain ⟨⟨hprev, hnext⟩, hrest⟩ := hseg
          cases rest with
          | nil =>
              simp [List.getLast?] at hlast
              subst hlast
              rw [hpl nd h]
              simp [segOk, headOr, hprev]
          | cons r rest2 =>
              have hpl2 : (r :: rest2).getLast? = some pl := by
                rwa [List.getLast?_cons_cons] at hlast
              have hane : a ≠ pl := by
                intro hcontra
                subst hcontra
                exact (List.nodup_cons.mp hnd).1 (mem_of_getLast?_eq hpl2)
              rw [hagree a (by simp) hane, h]
              simp only [Bool.and_eq_true, decide_eq_true_eq]
              refine ⟨⟨hprev, by simpa [headOr] using hnext⟩, ?_⟩
              exact ih (some a) oldk newk pl hpl2 (List.nodup_cons.mp hnd).2 hrest
                (fun j hj hjne => hagree j (by simp [hj]) hjne) hpl

/-- Retargeting the `prev` expectation of a segment: only the first node's
`prev` field differs. -/
theorem segOk_head_prev {nodes NN : List (DllNode T)}
    {bs : List Nat} {nx : Nat} {oldpr newpr k : Option Nat}
    (hnd : (nx :: bs).Nodup)
    (hseg : segOk nodes oldpr (nx :: bs) k = true)
    (hagree : ∀ j ∈ bs, NN[j]? = nodes[j]?)
    (hnx : ∀ nd, nodes[nx]? = some nd → NN[nx]? = some { nd with prev := newpr }) :
    segOk NN newpr (nx :: bs) k = true := by
  unfold segOk at hseg ⊢
  cases h : nodes[nx]? with
  | none => rw [h] at hseg; simp at hseg
  | some nd =>
      rw [h] at hseg
      simp only [Bool.and_eq_true, decide_eq_true_eq] at hseg
      obtain ⟨⟨_, hnext⟩, hrest⟩ := hseg
      rw [hnx nd h]
      simp only [Bool.and_eq_true, decide_eq_true_eq]
      exact ⟨⟨by simp, hnext⟩, by rwa [segOk_congr (some nx) bs k hagree]⟩

set_option maxHeartbeats 1600000 in
/-- Removing a live handle unlinks exactly that node: the spine loses `id`,
the arena keeps its size and all its values, and the node's value is
returned. -/
theorem remove_spec [Inhabited T] {l : DllList T} {as bs : List Nat} {id : Nat}
    (hs : spineOk l (as ++ id :: bs)) :
    (l.remove (some id)).1 = some (valueD l id) ∧
    spineOk (l.remove (some id)).2 (as ++ bs) ∧
    (l.remove (some id)).2.nodes.length = l.nodes.length ∧
    (∀ j, valueD (l.remove (some id)).2 j = valueD l j) ∧
    (l.remove (some id)).2.len = l.len - 1 := by
  obtain ⟨nodes, hd, tl, ln⟩ := l
  obtain ⟨hlen, hhead, htail, hnodup, hbounds, hseg⟩ := hs
  simp only at hlen hhead htail hseg hbounds
  rw [segOk_append] at hseg
  simp only [Bool.and_eq_true] at hseg
  obtain ⟨hsegAs, hsegMid⟩ := hseg
  have hsegAs2 : segOk nodes none as (some id) = true := hsegAs
  unfold segOk at hsegMid
  cases hnd : nodes[id]? with
  | none => rw [hnd] at hsegMid; simp at hsegMid
  | some nd =>
    rw [hnd] at hsegMid
    simp only [Bool.and_eq_true, decide_eq_true_eq] at hsegMid
    obtain ⟨⟨hndprev, hndnext⟩, hsegBs⟩ := hsegMid
    have hlen0 : ¬ ln = 0 := by rw [hlen]; simp
    have hvalD : valueD ⟨nodes, hd, tl, ln⟩ id = nd.value := by
      unfold valueD; rw [hnd]; rfl
    -- distinctness facts from Nodup (as ++ id :: bs)
    have hnds := List.nodup_append.mp hnodup
    obtain ⟨hndAs, hndCons, hdisj⟩ := hnds
    have hidAs : id ∉ as := fun hmem => hdisj hmem (by simp)
    have hidBs : id ∉ bs := (List.nodup_cons.mp hndCons).1
    have hndBs : bs.Nodup := (List.nodup_cons.mp hndCons).2
    have hnodup2 : (as ++ bs).Nodup := by
      refine List.Nodup.sublist ?_ hnodup
      exact (List.append_sublist_append_left as).mpr (List.sublist_cons_self id bs)
    cases hLas : as.getLast? with
    | none =>
      -- as = [] : the removed node is the head
      have hasnil : as = [] := List.getLast?_eq_none_iff.mp hLas
      subst hasnil
      have hprev2 : nd.prev = none := by rwa [lastOr] at hndprev
      cases bs with
      | nil =>
        have hnext2 : nd.next = none := by rwa [headOr] at hndnext
        have hres : remove ⟨nodes, hd, tl, ln⟩ (some id) =
            (some nd.value,
              ⟨setPrev (setNext nodes id none) id none, nd.next, nd.prev, ln - 1⟩) := by
          simp only [remove, hnd, hprev2, hnext2, if_neg hlen0]
        rw [hres]
        refine ⟨by rw [hvalD], ?_, ?_, ?_, rfl⟩
        · refine ⟨by rw [hlen]; rfl, by simp [hnext2, headOr], by simp [hprev2, lastOr, List.getLast?], by simp, by simp, by simp [segOk]⟩
        · simp [length_setPrev, length_setNext]
        · intro j
          rw [valueD_setPrev, valueD_setNext]
          rfl
      | cons nx bs2 =>
        have hnext2 : nd.next = some nx := by rwa [headOr] at hndnext
        have hnxid : nx ≠ id := by
          intro h; exact hidBs (by simp [h.symm])
        have hres : remove ⟨nodes, hd, tl, ln⟩ (some id) =
            (some nd.value,
              ⟨setPrev (setNext (setPrev nodes nx nd.prev) id none) id none,
                nd.next, tl, ln - 1⟩) := by
          simp only [remove, hnd, hprev2, hnext2, if_neg hlen0]
        rw [hres]
        obtain ⟨ndx, hndx⟩ := segOk_some hsegBs (List.mem_cons_self nx bs2)
        have hN3nx : (setPrev (setNext (setPrev nodes nx nd.prev) id none) id none)[nx]?
            = some { ndx with prev := nd.prev } := by
          rw [getElem?_setPrev_ne _ _ _ hnxid, getElem?_setNext_ne _ _ _ hnxid,
            getElem?_setPrev_self _ _ _ hndx]
        have hN3other : ∀ j, j ≠ nx → j ≠ id →
            (setPrev (setNext (setPrev nodes nx nd.prev) id none) id none)[j]?
              = nodes[j]? := by
          intro j hjnx hjid
          rw [getElem?_setPrev_ne _ _ _ hjid, getElem?_setNext_ne _ _ _ hjid,
            getElem?_setPrev_ne _ _ _ hjnx]
        refine ⟨by rw [hvalD], ?_, ?_, ?_, rfl⟩
        · refine ⟨by rw [hlen]; simp only [List.length_append, List.length_cons, List.length_nil]; omega, by simp [hnext2, headOr], ?_, by simpa using hnodup2, ?_, ?_⟩
          · -- tail unchanged
            simp only
            rw [htail]
            simp [lastOr, List.getLast?_cons_cons]
          · intro j hj
            simp only [length_setPrev, length_setNext]
            refine hbounds j ?_
            simp only [List.mem_append, List.mem_cons] at hj ⊢
            tauto
          · -- links of the remaining spine
            simp only [List.nil_append] at hsegBs ⊢
            refine segOk_head_prev (by simpa using hnodup2) hsegBs ?_ ?_
            · intro j hj
              refine hN3other j ?_ ?_
              · intro h; subst h
                exact (List.nodup_cons.mp (by simpa using hnodup2)).1 hj
              · intro h; subst h; exact hidBs (by simp [hj])
            · intro nd2 hnd2
              rw [hndx] at hnd2
              cases hnd2
              rw [hN3nx, hprev2]
        · simp [length_setPrev, length_setNext]
        · intro j
          rw [valueD_setPrev, valueD_setNext, valueD_setPrev]
          rfl
    | some p =>
      -- as ≠ [] : the removed node has a predecessor p
      have hasne : as ≠ [] := by
        intro h; subst h; simp [List.getLast?] at hLas
      have hprev2 : nd.prev = some p := by rwa [lastOr, hLas] at hndprev
      have hpAs : p ∈ as := mem_of_getLast?_eq hLas
      have hpid : p ≠ id := by
        intro h; subst h; exact hidAs hpAs
      obtain ⟨ndp, hndp⟩ := segOk_some hsegAs2 hpAs
      have hheadAs : hd = headOr as none := by
        rw [hhead, headOr_append]
        cases as with
        | nil => exact absurd rfl hasne
        | cons a as2 => simp [headOr]
      cases bs with
      | nil =>
        have hnext2 : nd.next = none := by rwa [headOr] at hndnext
        have hres : remove ⟨nodes, hd, tl, ln⟩ (some id) =
            (some nd.value,
              ⟨setPrev (setNext (setNext nodes p nd.next) id none) id none,
                hd, nd.prev, ln - 1⟩) := by
          simp only [remove, hnd, hprev2, hnext2, if_neg hlen0]
        rw [hres]
        have hN3p : (setPrev (setNext (setNext nodes p nd.next) id none) id none)[p]?
            = some { ndp with next := nd.next } := by
          rw [getElem?_setPrev_ne _ _ _ hpid, getElem?_setNext_ne _ _ _ hpid,
            getElem?_setNext_self _ _ _ hndp]
        have hN3other : ∀ j, j ≠ p → j ≠ id →
            (setPrev (setNext (setNext nodes p nd.next) id none) id none)[j]?
              = nodes[j]? := by
          intro j hjp hjid
          rw [getElem?_setPrev_ne _ _ _ hjid, getElem?_setNext_ne _ _ _ hjid,
            getElem?_setNext_ne _ _ _ hjp]
        refine ⟨by rw [hvalD], ?_, ?_, ?_, rfl⟩
        · refine ⟨by rw [hlen]; simp only [List.length_append, List.length_cons, List.length_nil]; omega, by rw [headOr_append_ne _ _ none hasne]; exact hheadAs, ?_, by simpa using hnodup2, ?_, ?_⟩
          · simp only
            rw [hprev2]
            simp only [List.append_nil]
            rw [lastOr, hLas]
          · intro j hj
            simp only [length_setPrev, length_setNext]
            refine hbounds j ?_
            simp only [List.mem_append, List.mem_cons] at hj ⊢
            tauto
          · simp only [List.append_nil]
            refine segOk_last_next as none (some id) (headOr [] none) p hLas hndAs hsegAs2 ?_ ?_
            · intro j hj hjp
              refine hN3other j hjp ?_
              intro h; subst h; exact hidAs hj
            · intro nd2 hnd2
              rw [hndp] at hnd2
              cases hnd2
              rw [hN3p, hnext2]
              rfl
        · simp [length_setPrev, length_setNext]
        · intro j
          rw [valueD_setPrev, valueD_setNext, valueD_setNext]
          rfl
      | cons nx bs2 =>
        have hnext2 : nd.next = some nx := by rwa [headOr] at hndnext
        have hnxid : nx ≠ id := by
          intro h; exact hidBs (by simp [h.symm])
        have hnxp : nx ≠ p := by
          intro h; subst h; exact hdisj hpAs (by simp)
        have hres : remove ⟨nodes, hd, tl, ln⟩ (some id) =
            (some nd.value,
              ⟨setPrev (setNext (setPrev (setNext nodes p nd.next) nx nd.prev) id none)
                  id none, hd, tl, ln - 1⟩) := by
          simp only [remove, hnd, hprev2, hnext2, if_neg hlen0]
        rw [hres]
        obtain ⟨ndx, hndx⟩ := segOk_some hsegBs (List.mem_cons_self nx bs2)
        have hN3p : (setPrev (setNext (setPrev (setNext nodes p nd.next) nx nd.prev) id none) id none)[p]?
            = some { ndp with next := nd.next } := by
          rw [getElem?_setPrev_ne _ _ _ hpid, getElem?_setNext_ne _ _ _ hpid,
            getElem?_setPrev_ne _ _ _ hnxp.symm, getElem?_setNext_self _ _ _ hndp]
        have hN3nx : (setPrev (setNext (setPrev (setNext nodes p nd.next) nx nd.prev) id none) id none)[nx]?
            = some { ndx with prev := nd.prev } := by
          rw [getElem?_setPrev_ne _ _ _ hnxid, getElem?_setNext_ne _ _ _ hnxid]
          have : (setNext nodes p nd.next)[nx]? = some ndx := by
            rw [getElem?_setNext_ne _ _ _ hnxp, hndx]
          rw [getElem?_setPrev_self _ _ _ this]
        have hN3other : ∀ j, j ≠ p → j ≠ nx → j ≠ id →
            (setPrev (setNext (setPrev (setNext nodes p nd.next) nx nd.prev) id none) id none)[j]?
              = nodes[j]? := by
          intro j hjp hjnx hjid
          rw [getElem?_setPrev_ne _ _ _ hjid, getElem?_setNext_ne _ _ _ hjid,
            getElem?_setPrev_ne _ _ _ hjnx, getElem?_setNext_ne _ _ _ hjp]
        refine ⟨by rw [hvalD], ?_, ?_, ?_, rfl⟩
        · refine ⟨by rw [hlen]; simp only [List.length_append, List.length_cons, List.length_nil]; omega, by rw [headOr_append_ne _ _ none hasne]; exact hheadAs, ?_, by simpa using hnodup2, ?_, ?_⟩
          · simp only
            rw [htail, lastOr_append, lastOr_append]
            simp [lastOr, List.getLast?_cons_cons]
          · intro j hj
            simp only [length_setPrev, length_setNext]
            refine hbounds j ?_
            simp only [List.mem_append, List.mem_cons] at hj ⊢
            tauto
          · rw [segOk_append]
            simp only [Bool.and_eq_true]
            constructor
            · refine segOk_last_next as none (some id) (headOr (nx :: bs2) none) p hLas hndAs hsegAs2 ?_ ?_
              · intro j hj hjp
                refine hN3other j hjp ?_ ?_
                · intro h; subst h; exact hdisj hj (by simp)
                · intro h; subst h; exact hidAs hj
              · intro nd2 hnd2
                rw [hndp] at hnd2
                cases hnd2
                rw [hN3p, hnext2]
                rfl
            · refine segOk_head_prev hndBs hsegBs ?_ ?_
              · intro j hj
                refine hN3other j ?_ ?_ ?_
                · intro h; subst h; exact hdisj hpAs (by simp [hj])
                · intro h; subst h
                  exact (List.nodup_cons.mp hndBs).1 hj
                · intro h; subst h; exact hidBs (by simp [hj])
              · intro nd2 hnd2
                rw [hndx] at hnd2
                cases hnd2
                rw [hN3nx, hprev2]
                simp [lastOr, hLas]
        · simp [length_setPrev, length_setNext]
        · intro j
          rw [valueD_setPrev, valueD_setNext, valueD_setPrev, valueD_setNext]
          rfl

set_option maxHeartbeats 1600000 in
/-- PushFront allocates a fresh arena slot and prepends it to the spine. -/
theorem pushFront_spec [Inhabited T] {l : DllList T} {ids : List Nat} (v : T)
    (hs : spineOk l ids) :
    (l.pushFront v).2 = l.nodes.length ∧
    spineOk (l.pushFront v).1 (l.nodes.length :: ids) ∧
    (l.pushFront v).1.nodes.length = l.nodes.length + 1 ∧
    valueD (l.pushFront v).1 l.nodes.length = v ∧
    (∀ j, j < l.nodes.length → valueD (l.pushFront v).1 j = valueD l j) ∧
    (l.pushFront v).1.len = l.len + 1 := by
  obtain ⟨nodes, hd, tl, ln⟩ := l
  obtain ⟨hlen, hhead, htail, hnodup, hbounds, hseg⟩ := hs
  simp only at hlen hhead htail hseg hbounds ⊢
  cases ids with
  | nil =>
    have hd0 : hd = none := by simpa [headOr] using hhead
    subst hd0
    refine ⟨rfl, ⟨by simp [pushFront, hlen], rfl, rfl, by simp, ?_, ?_⟩, by simp [pushFront], ?_, ?_, by simp [pushFront]⟩
    · intro j hj
      simp only [pushFront, List.length_append] at hj ⊢
      simp at hj
      subst hj
      simp
    · simp only [pushFront, segOk, List.getElem?_concat_length]
      simp [headOr]
    · simp only [pushFront, valueD, List.getElem?_concat_length]
      rfl
    · intro j hj
      simp only [pushFront, valueD]
      rw [List.getElem?_append_left hj]
  | cons h ids2 =>
    have hdh : hd = some h := by simpa [headOr] using hhead
    subst hdh
    have hhlt : h < nodes.length := hbounds h (by simp)
    have hfresh : nodes.length ∉ h :: ids2 := fun hmem => by
      have := hbounds _ hmem; omega
    obtain ⟨ndh, hndh⟩ := segOk_some hseg (List.mem_cons_self h ids2)
    have hxh : (nodes ++ [(⟨v, none, some h⟩ : DllNode T)])[h]? = some ndh := by
      rw [List.getElem?_append_left hhlt, hndh]
    have hNh : (setPrev (nodes ++ [(⟨v, none, some h⟩ : DllNode T)]) h
        (some nodes.length))[h]? = some { ndh with prev := some nodes.length } :=
      getElem?_setPrev_self _ _ _ hxh
    have hNlen : (setPrev (nodes ++ [(⟨v, none, some h⟩ : DllNode T)]) h
        (some nodes.length))[nodes.length]? = some ⟨v, none, some h⟩ := by
      rw [getElem?_setPrev_ne _ _ _ (by omega), List.getElem?_concat_length]
    have hNother : ∀ j, j ≠ h → j < nodes.length →
        (setPrev (nodes ++ [(⟨v, none, some h⟩ : DllNode T)]) h
          (some nodes.length))[j]? = nodes[j]? := by
      intro j hjh hjlt
      rw [getElem?_setPrev_ne _ _ _ hjh, List.getElem?_append_left hjlt]
    refine ⟨rfl, ⟨by simp [pushFront, hlen], rfl, ?_, ?_, ?_, ?_⟩, ?_, ?_, ?_, by simp [pushFront]⟩
    · -- tail is unchanged
      show tl = lastOr (nodes.length :: h :: ids2) none
      rw [htail]
      simp [lastOr, List.getLast?_cons_cons]
    · exact List.nodup_cons.mpr ⟨hfresh, hnodup⟩
    · intro j hj
      simp only [pushFront, length_setPrev, List.length_append, List.length_cons,
        List.length_nil]
      rcases List.mem_cons.mp hj with rfl | hm
      · omega
      · have := hbounds _ hm; omega
    · -- links
      simp only [pushFront]
      unfold segOk
      rw [hNlen]
      simp only [Bool.and_eq_true, decide_eq_true_eq]
      refine ⟨⟨trivial, rfl⟩, ?_⟩
      refine segOk_head_prev (by simpa using hnodup) hseg ?_ ?_
      · intro j hj
        refine hNother j ?_ (hbounds j (by simp [hj]))
        intro hcontra; subst hcontra
        exact (List.nodup_cons.mp hnodup).1 hj
      · intro nd2 hnd2
        rw [hndh] at hnd2
        cases hnd2
        exact hNh
    · simp [pushFront, length_setPrev]
    · simp only [pushFront, valueD]
      rw [hNlen]
      rfl
    · intro j hj
      simp only [pushFront, valueD]
      by_cases hjh : j = h
      · subst hjh
        rw [hNh, hndh]
        rfl
      · rw [hNother j hjh hj]

set_option maxHeartbeats 1600000 in
/-- PushBack allocates a fresh arena slot and appends it to the spine. -/
theorem pushBack_spec [Inhabited T] {l : DllList T} {ids : List Nat} (v : T)
    (hs : spineOk l ids) :
    (l.pushBack v).2 = l.nodes.length ∧
    spineOk (l.pushBack v).1 (ids ++ [l.nodes.length]) ∧
    (l.pushBack v).1.nodes.length = l.nodes.length + 1 ∧
    valueD (l.pushBack v).1 l.nodes.length = v ∧
    (∀ j, j < l.nodes.length → valueD (l.pushBack v).1 j = valueD l j) ∧
    (l.pushBack v).1.len = l.len + 1 := by
  obtain ⟨nodes, hd, tl, ln⟩ := l
  obtain ⟨hlen, hhead, htail, hnodup, hbounds, hseg⟩ := hs
  simp only at hlen hhead htail hseg hbounds ⊢
  cases hLas : ids.getLast? with
  | none =>
    have hids : ids = [] := List.getLast?_eq_none_iff.mp hLas
    subst hids
    have ht0 : tl = none := by simpa [lastOr] using htail
    subst ht0
    refine ⟨rfl, ⟨by simp [pushBack, hlen], rfl, rfl, by simp, ?_, ?_⟩, by simp [pushBack], ?_, ?_, by simp [pushBack]⟩
    · intro j hj
      simp only [pushBack, List.length_append] at hj ⊢
      simp at hj
      subst hj
      simp
    · simp only [pushBack, segOk, List.getElem?_concat_length]
      simp [headOr]
    · simp only [pushBack, valueD, List.getElem?_concat_length]
      rfl
    · intro j hj
      simp only [pushBack, valueD]
      rw [List.getElem?_append_left hj]
  | some t =>
    have hids : ids ≠ [] := by
      intro h; subst h; simp [List.getLast?] at hLas
    have htt : tl = some t := by rwa [lastOr, hLas] at htail
    subst htt
    have htmem : t ∈ ids := mem_of_getLast?_eq hLas
    have htlt : t < nodes.length := hbounds t htmem
    have hfresh : nodes.length ∉ ids := fun hmem => by
      have := hbounds _ hmem; omega
    obtain ⟨ndt, hndt⟩ := segOk_some hseg htmem
    have hxt : (nodes ++ [(⟨v, some t, none⟩ : DllNode T)])[t]? = some ndt := by
      rw [List.getElem?_append_left htlt, hndt]
    have hNt : (setNext (nodes ++ [(⟨v, some t, none⟩ : DllNode T)]) t
        (some nodes.length))[t]? = some { ndt with next := some nodes.length } :=
      getElem?_setNext_self _ _ _ hxt
    have hNlen : (setNext (nodes ++ [(⟨v, some t, none⟩ : DllNode T)]) t
        (some nodes.length))[nodes.length]? = some ⟨v, some t, none⟩ := by
      rw [getElem?_setNext_ne _ _ _ (by omega), List.getElem?_concat_length]
    have hNother : ∀ j, j ≠ t → j < nodes.length →
        (setNext (nodes ++ [(⟨v, some t, none⟩ : DllNode T)]) t
          (some nodes.length))[j]? = nodes[j]? := by
      intro j hjt hjlt
      rw [getElem?_setNext_ne _ _ _ hjt, List.getElem?_append_left hjlt]
    refine ⟨rfl, ⟨by simp [pushBack, hlen], ?_, ?_, ?_, ?_, ?_⟩, ?_, ?_, ?_, by simp [pushBack]⟩
    · -- head is unchanged
      show hd = headOr (ids ++ [nodes.length]) none
      rw [hhead, headOr_append_ne _ _ none hids]
    · show some nodes.length = lastOr (ids ++ [nodes.length]) none
      rw [lastOr_append]
      simp [lastOr, List.getLast?]
    · rw [List.nodup_append]
      refine ⟨hnodup, by simp, ?_⟩
      intro a ha hcontra
      simp at hcontra
      subst hcontra
      exact hfresh ha
    · intro j hj
      simp only [pushBack, length_setNext, List.length_append, List.length_cons,
        List.length_nil]
      rcases List.mem_append.mp hj with hm | hm
      · have := hbounds _ hm; omega
      · simp at hm; omega
    · -- links
      simp only [pushBack]
      rw [segOk_append]
      simp only [Bool.and_eq_true]
      constructor
      · refine segOk_last_next ids none none (headOr [nodes.length] none) t hLas hnodup hseg ?_ ?_
        · intro j hj hjt
          exact hNother j hjt (hbounds j hj)
        · intro nd2 hnd2
          rw [hndt] at hnd2
          cases hnd2
          exact hNt
      · unfold segOk
        rw [hNlen]
        simp [segOk, lastOr, hLas, headOr]
    · simp [pushBack, length_setNext]
    · simp only [pushBack, valueD]
      rw [hNlen]
      rfl
    · intro j hj
      simp only [pushBack, valueD]
      by_cases hjt : j = t
      · subst hjt
        rw [hNt, hndt]
        rfl
      · rw [hNother j hjt hj]

/-- Walking the chain from the head of a consistent segment yields exactly
the segment's values. -/
theorem toSliceAux_spine [Inhabited T] {l : DllList T} :
    ∀ (ids : List Nat) (fuel : Nat) (pr : Option Nat),
      segOk l.nodes pr ids none = true → ids.length ≤ fuel →
      toSliceAux l fuel (headOr ids none) = ids.map (valueD l) := by
  intro ids
  induction ids with
  | nil =>
      intro fuel pr _ _
      cases fuel <;> simp [toSliceAux, headOr]
  | cons a rest ih =>
      intro fuel pr hseg hlen
      unfold segOk at hseg
      cases hnd : l.nodes[a]? with
      | none => rw [hnd] at hseg; simp at hseg
      | some nd =>
        rw [hnd] at hseg
        simp only [Bool.and_eq_true, decide_eq_true_eq] at hseg
        obtain ⟨⟨-, hnext⟩, hrest⟩ := hseg
        cases fuel with
        | zero => simp at hlen
        | succ f =>
            show toSliceAux l (f + 1) (some a) = _
            simp only [toSliceAux, hnd]
            have hv : valueD l a = nd.value := by unfold valueD; rw [hnd]; rfl
            rw [hnext, ih f (some a) hrest (by simpa using hlen), List.map_cons, hv]

/-- Under the spine invariant, `ToSlice` lists the live values in order. -/
theorem toSlice_spine [Inhabited T] {l : DllList T} {ids : List Nat}
    (hs : spineOk l ids) : l.toSlice = ids.map (valueD l) := by
  obtain ⟨hlen, hhead, htail, hnodup, hbounds, hseg⟩ := hs
  unfold toSlice
  rw [hhead, hlen]
  exact toSliceAux_spine ids ids.length none hseg le_rfl

/-- Walking the chain collecting handles yields exactly the spine. -/
theorem liveIdsAux_spine {l : DllList T} :
    ∀ (ids : List Nat) (fuel : Nat) (pr : Option Nat),
      segOk l.nodes pr ids none = true → ids.length ≤ fuel →
      liveIdsAux l fuel (headOr ids none) = ids := by
  intro ids
  induction ids with
  | nil =>
      intro fuel pr _ _
      cases fuel <;> simp [liveIdsAux, headOr]
  | cons a rest ih =>
      intro fuel pr hseg hlen
      unfold segOk at hseg
      cases hnd : l.nodes[a]? with
      | none => rw [hnd] at hseg; simp at hseg
      | some nd =>
        rw [hnd] at hseg
        simp only [Bool.and_eq_true, decide_eq_true_eq] at hseg
        obtain ⟨⟨-, hnext⟩, hrest⟩ := hseg
        cases fuel with
        | zero => simp at hlen
        | succ f =>
            show liveIdsAux l (f + 1) (some a) = _
            simp only [liveIdsAux, hnd]
            rw [hnext, ih f (some a) hrest (by simpa using hlen)]

/-- Under the spine invariant, `liveIds` is exactly the spine. -/
theorem liveIds_spine {l : DllList T} {ids : List Nat}
    (hs : spineOk l ids) : l.liveIds = ids := by
  obtain ⟨hlen, hhead, htail, hnodup, hbounds, hseg⟩ := hs
  unfold liveIds
  rw [hhead, hlen]
  exact liveIdsAux_spine ids ids.length none hseg le_rfl

set_option maxHeartbeats 800000 in
/-- MoveToFront of a live non-head handle (with the spine split around it)
repositions the value at the front — as a freshly allocated node. -/
theorem moveToFront_spec [Inhabited T] {l : DllList T} {as bs : List Nat} {id : Nat}
    (hs : spineOk l (as ++ id :: bs)) (hne : as ≠ []) :
    spineOk (l.moveToFront (some id)) (l.nodes.length :: (as ++ bs)) ∧
    toSlice (l.moveToFront (some id)) = valueD l id :: (as ++ bs).map (valueD l) ∧
    (l.moveToFront (some id)).len = l.len ∧
    id ∉ liveIds (l.moveToFront (some id)) := by
  have hsegs := hs.2.2.2.2.2
  rw [segOk_append] at hsegs
  have hsegMid : segOk l.nodes (lastOr as none) (id :: bs) none = true :=
    ((Bool.and_eq_true _ _).mp hsegs).2
  obtain ⟨ndi, hndi⟩ := segOk_some hsegMid (List.mem_cons_self id bs)
  have hidAs : id ∉ as := by
    have h := hs.2.2.2.1
    intro hmem
    exact (List.nodup_append.mp h).2.2 hmem (by simp)
  have hcond : ¬(l.head = some id ∨ l.len < 2) := by
    push_neg
    constructor
    · rw [hs.2.1]
      cases as with
      | nil => exact absurd rfl hne
      | cons a as2 =>
          simp only [headOr, List.cons_append]
          intro hcontra
          cases hcontra
          exact hidAs (by simp)
    · rw [hs.1]
      cases as with
      | nil => exact absurd rfl hne
      | cons a as2 => simp only [List.length_append, List.length_cons]; omega
  have hv : valueD l id = ndi.value := by unfold valueD; rw [hndi]; rfl
  have hunf : l.moveToFront (some id) = (pushFront (l.remove (some id)).2 ndi.value).1 := by
    simp only [moveToFront, if_neg hcond, hndi]
  obtain ⟨hrem1, hremS, hremLen, hremVal, hremLn⟩ := remove_spec hs
  obtain ⟨hpf1, hpfS, hpfLen, hpfVal, hpfOther, hpfLn⟩ :=
    pushFront_spec (l := (l.remove (some id)).2) ndi.value hremS
  rw [hremLen] at hpfS hpfVal hpfOther
  have hlenpos : 1 ≤ l.len := by
    rw [hs.1]; simp only [List.length_append, List.length_cons]; omega
  have hboundsOld : ∀ j ∈ as ++ bs, j < l.nodes.length := by
    intro j hj
    refine hs.2.2.2.2.1 j ?_
    simp only [List.mem_append, List.mem_cons] at hj ⊢
    tauto
  refine ⟨by rw [hunf]; exact hpfS, ?_, ?_, ?_⟩
  · rw [hunf, toSlice_spine hpfS, List.map_cons, hpfVal, hv]
    congr 1
    refine List.map_congr_left ?_
    intro j hj
    rw [hpfOther j (hboundsOld j hj), hremVal j]
  · rw [hunf, hpfLn, hremLn]
    omega
  · rw [hunf, liveIds_spine hpfS]
    intro hmem
    rcases List.mem_cons.mp hmem with hni | hm
    · have := hs.2.2.2.2.1 id (by simp)
      omega
    · rcases List.mem_append.mp hm with hma | hmb
      · exact hidAs hma
      · have h := hs.2.2.2.1
        exact (List.nodup_cons.mp (List.nodup_append.mp h).2.1).1 hmb

set_option maxHeartbeats 800000 in
/-- MoveToBack of a live non-tail handle repositions the value at the back —
as a freshly allocated node. -/
theorem moveToBack_spec [Inhabited T] {l : DllList T} {as bs : List Nat} {id : Nat}
    (hs : spineOk l (as ++ id :: bs)) (hne : bs ≠ []) :
    spineOk (l.moveToBack (some id)) ((as ++ bs) ++ [l.nodes.length]) ∧
    toSlice (l.moveToBack (some id)) = (as ++ bs).map (valueD l) ++ [valueD l id] ∧
    (l.moveToBack (some id)).len = l.len ∧
    id ∉ liveIds (l.moveToBack (some id)) := by
  have hsegs := hs.2.2.2.2.2
  rw [segOk_append] at hsegs
  have hsegMid : segOk l.nodes (lastOr as none) (id :: bs) none = true :=
    ((Bool.and_eq_true _ _).mp hsegs).2
  obtain ⟨ndi, hndi⟩ := segOk_some hsegMid (List.mem_cons_self id bs)
  have hidAs : id ∉ as := by
    have h := hs.2.2.2.1
    intro hmem
    exact (List.nodup_append.mp h).2.2 hmem (by simp)
  have hidBs : id ∉ bs := by
    have h := hs.2.2.2.1
    exact (List.nodup_cons.mp (List.nodup_append.mp h).2.1).1
  have hcond : ¬(l.tail = some id ∨ l.len < 2) := by
    push_neg
    constructor
    · rw [hs.2.2.1, lastOr_append]
      cases bs with
      | nil => exact absurd rfl hne
      | cons b bs2 =>
          rw [lastOr_cons_cons]
          have hgl := List.getLast?_eq_getLast_of_ne_nil (l := b :: bs2) (by simp)
          intro hcontra
          unfold lastOr at hcontra
          rw [hgl] at hcontra
          simp only [Option.some.injEq] at hcontra
          refine hidBs ?_
          rw [← hcontra]
          exact List.getLast_mem _
    · rw [hs.1]
      cases bs with
      | nil => exact absurd rfl hne
      | cons b bs2 => simp only [List.length_append, List.length_cons]; omega
  have hv : valueD l id = ndi.value := by unfold valueD; rw [hndi]; rfl
  have hunf : l.moveToBack (some id) = (pushBack (l.remove (some id)).2 ndi.value).1 := by
    simp only [moveToBack, if_neg hcond, hndi]
  obtain ⟨hrem1, hremS, hremLen, hremVal, hremLn⟩ := remove_spec hs
  obtain ⟨hpb1, hpbS, hpbLen, hpbVal, hpbOther, hpbLn⟩ :=
    pushBack_spec (l := (l.remove (some id)).2) ndi.value hremS
  rw [hremLen] at hpbS hpbVal hpbOther
  have hboundsOld : ∀ j ∈ as ++ bs, j < l.nodes.length := by
    intro j hj
    refine hs.2.2.2.2.1 j ?_
    simp only [List.mem_append, List.mem_cons] at hj ⊢
    tauto
  refine ⟨by rw [hunf]; exact hpbS, ?_, ?_, ?_⟩
  · rw [hunf, toSlice_spine hpbS, List.map_append, List.map_cons]
    congr 1
    · refine List.map_congr_left ?_
      intro j hj
      rw [hpbOther j (hboundsOld j hj), hremVal j]
    · simp only [List.map_nil]
      rw [hpbVal, hv]
  · rw [hunf, hpbLn, hremLn]
    have : 1 ≤ l.len := by
      rw [hs.1]; simp only [List.length_append, List.length_cons]; omega
    omega
  · rw [hunf, liveIds_spine hpbS]
    intro hmem
    rcases List.mem_append.mp hmem with hm | hni
    · rcases List.mem_append.mp hm with hma | hmb
      · exact hidAs hma
      · exact hidBs hmb
    · have := hs.2.2.2.2.1 id (by simp)
      simp at hni
      omega

end DllList

end GoQueue

namespace GoQueue

/-! ## priorityqueue.PriorityQueue

Translated from `priorityqueue/priorityqueue.go` together with the Go
standard library `container/heap` functions it calls (`Init`, `Push`,
`Pop`, `Remove`, `up`, `down`).  An `*Item[T]` is an arena id into the
append-only `store`; `pq.items` is the heap slice of those pointers.
`Item.index` is the mutable `index int` field (`-1` after removal). -/

structure Item (T : Type) where
  value : T
  index : Int
deriving Repr, DecidableEq

instance {T : Type} [Inhabited T] : Inhabited (Item T) := ⟨⟨default, 0⟩⟩

structure PriorityQueue (T : Type) where
  items : List Nat
  store : List (Item T)
  less : T → T → Bool

namespace PriorityQueue

variable {T : Type} [Inhabited T]

/-- The `Value` field of the item the pointer `id` refers to (junk default
on an out-of-arena id, which never arises from this queue's handles). -/
def valId (s : PriorityQueue T) (id : Nat) : T := (s.store.getD id default).value

/-- The current `index` field of the item the pointer `id` refers to. -/
def idxId (s : PriorityQueue T) (id : Nat) : Int := (s.store.getD id default).index

/-- The sequence of values currently held by the heap slice. -/
def vals (s : PriorityQueue T) : List T := s.items.map (valId s)

/-- The value at heap position `k`. -/
def valAtPos (s : PriorityQueue T) (k : Nat) : T := valId s (s.items.getD k 0)

/-- Translates `Len`. -/
def lenPQ (s : PriorityQueue T) : Nat := s.items.length

/-- Translates `Less(i, j) = less(items[i].Value, items[j].Value)`. -/
def lessPQ (s : PriorityQueue T) (i j : Nat) : Bool :=
  s.less (valAtPos s i) (valAtPos s j)

/-- Arena update writing the `index` field of the item in slot `id`. -/
def setIndex (st : List (Item T)) (id : Nat) (ix : Int) : List (Item T) :=
  match st[id]? with
  | some it => st.set id { it with index := ix }
  | none => st

/-- Translates `Swap(i, j)`: swap the two pointers and synchronously update
both items' `index` fields.  (Go would panic out of range; the heap
algorithms only call it in range, and the guard makes the model total.) -/
def swapPQ (s : PriorityQueue T) (i j : Nat) : PriorityQueue T :=
  if i < s.items.length ∧ j < s.items.length then
    let a := s.items.getD i 0
    let b := s.items.getD j 0
    { s with items := (s.items.set i b).set j a,
             store := setIndex (setIndex s.store b i) a j }
  else s

/-- Translates `container/heap.up`. -/
def upPQ (s : PriorityQueue T) (j : Nat) : PriorityQueue T :=
  let i := (j - 1) / 2
  if i = j ∨ lessPQ s j i = false then s
  else upPQ (swapPQ s i j) i
termination_by j
decreasing_by
  have : ¬ i = j := by tauto
  omega

/-- The `j` computed by one iteration of `container/heap.down`:
`j := 2*i+1; if j2 := j1+1; j2 < n && h.Less(j2, j1) { j = j2 }`. -/
def minChild (s : PriorityQueue T) (i n : Nat) : Nat :=
  if 2 * i + 2 < n ∧ lessPQ s (2 * i + 2) (2 * i + 1) = true then 2 * i + 2
  else 2 * i + 1

theorem minChild_gt (s : PriorityQueue T) (i n : Nat) : i < minChild s i n := by
  unfold minChild; split <;> omega

theorem minChild_lt (s : PriorityQueue T) (i n : Nat) (h : 2 * i + 1 < n) :
    minChild s i n < n := by
  unfold minChild; split <;> omega

/-- Translates the loop of `container/heap.down`; returns the state and the
final `i`.  (The Go `j1 < 0` test guards machine-int overflow, which cannot
occur in this `Nat` model.) -/
def downLoopPQ (s : PriorityQueue T) (i n : Nat) : PriorityQueue T × Nat :=
  if h : 2 * i + 1 ≥ n then (s, i)
  else
    let j := minChild s i n
    if lessPQ s j i = false then (s, i)
    else downLoopPQ (swapPQ s i j) j n
termination_by n - i
decreasing_by
  have h1 := minChild_gt s i n
  have h2 := minChild_lt s i n (by omega)
  omega

/-- Translates `container/heap.down` (`true` iff the element moved down). -/
def downPQ (s : PriorityQueue T) (i n : Nat) : PriorityQueue T × Bool :=
  let r := downLoopPQ s i n
  (r.1, decide (i < r.2))

/-- Translates `container/heap.Init` (`down` on `n/2-1 .. 0`). -/
def heapInit (s : PriorityQueue T) : PriorityQueue T :=
  (List.range (lenPQ s / 2)).reverse.foldl (fun acc i => (downPQ acc i (lenPQ s)).1) s

/-- Translates the `Push` method of the heap interface: set the pushed
item's index to the slice length and append the pointer. -/
def pushI (s : PriorityQueue T) (id : Nat) : PriorityQueue T :=
  { s with store := setIndex s.store id (s.items.length : Int),
           items := s.items ++ [id] }

/-- Translates the `Pop` method of the heap interface: take the last
pointer, set its item's index to `-1`, truncate.  (Go would panic on an
empty queue; every caller checks `Len` first.) -/
def popI (s : PriorityQueue T) : Option Nat × PriorityQueue T :=
  match s.items.getLast? with
  | none => (none, s)
  | some id =>
      (some id, { s with store := setIndex s.store id (-1),
                         items := s.items.take (s.items.length - 1) })

/-- Translates `container/heap.Push`. -/
def heapPush (s : PriorityQueue T) (id : Nat) : PriorityQueue T :=
  upPQ (pushI s id) (lenPQ (pushI s id) - 1)

/-- Translates `container/heap.Pop`. -/
def heapPop (s : PriorityQueue T) : Option Nat × PriorityQueue T :=
  let n := lenPQ s - 1
  let s1 := swapPQ s 0 n
  popI (downPQ s1 0 n).1

/-- Translates `container/heap.Remove`. -/
def heapRemove (s : PriorityQueue T) (i : Nat) : Option Nat × PriorityQueue T :=
  let n := lenPQ s - 1
  if n ≠ i then
    let s1 := swapPQ s i n
    let d := downPQ s1 i n
    popI (if d.2 = false then upPQ d.1 i else d.1)
  else popI s

/-- Translates `New`: empty queue, then `heap.Init`. -/
def new (less : T → T → Bool) : PriorityQueue T := heapInit ⟨[], [], less⟩

/-- Translates `PushAndReturnItem`: allocate `&Item[T]{Value: value}` (its
`index` field starts at Go's zero value `0`), `heap.Push` it, and return
the pointer. -/
def pushAndReturnItem (s : PriorityQueue T) (v : T) : PriorityQueue T × Nat :=
  let id := s.store.length
  (heapPush { s with store := s.store ++ [⟨v, 0⟩] } id, id)

/-- Translates `PushValue` (drops the handle). -/
def pushValue (s : PriorityQueue T) (v : T) : PriorityQueue T :=
  (pushAndReturnItem s v).1

/-- The body of `RemoveItem` once `it.index` has been read: bound check,
then `heap.Remove` at that position, returning the removed item's value.
Taking the index as a parameter also models a call with a foreign handle —
an `*Item` of another queue — whose stored index is `ix`. -/
def removeItemAt (s : PriorityQueue T) (ix : Int) : Option T × PriorityQueue T :=
  if ix < 0 ∨ (lenPQ s : Int) ≤ ix then (none, s)
  else
    let r := heapRemove s ix.toNat
    (r.1.map (valId r.2), r.2)

/-- Translates `RemoveItem` for a handle of this queue. -/
def removeItem (s : PriorityQueue T) (id : Nat) : Option T × PriorityQueue T :=
  removeItemAt s (idxId s id)

/-- Translates `PopValue`. -/
def popValue (s : PriorityQueue T) : Option T × PriorityQueue T :=
  if lenPQ s = 0 then (none, s)
  else
    let r := heapPop s
    (r.1.map (valId r.2), r.2)

/-- Translates `Peek` (and `PeekValue`, which just calls it). -/
def peek (s : PriorityQueue T) : Option T × PriorityQueue T :=
  if lenPQ s = 0 then (none, s)
  else ((s.items[0]?).map (valId s), s)

/-- Pushes a whole sequence with `PushValue`, in order. -/
def pushAllPQ (s : PriorityQueue T) (xs : List T) : PriorityQueue T :=
  xs.foldl pushValue s

/-- Calls `PopValue` `n` times, collecting each `(value, found)` result. -/
def drainPQ [Inhabited T] : Nat → PriorityQueue T → List (Option T) × PriorityQueue T
  | 0, s => ([], s)
  | n + 1, s =>
    let r := popValue s
    let rest := drainPQ n r.2
    (r.1 :: rest.1, rest.2)

/-- Calls `RemoveItem` on each handle in turn, collecting the results. -/
def removeAllPQ [Inhabited T] :
    PriorityQueue T → List Nat → List (Option T) × PriorityQueue T
  | s, [] => ([], s)
  | s, id :: rest =>
    let r := removeItem s id
    let rr := removeAllPQ r.2 rest
    (r.1 :: rr.1, rr.2)

/-- All pointers of the heap slice are valid arena slots. -/
def Bounded (s : PriorityQueue T) : Prop := ∀ id ∈ s.items, id < s.store.length

/-- The index-bookkeeping invariant: every live item's stored `index` is
its position in the heap slice and every removed item's is negative. -/
def IndexOk (s : PriorityQueue T) : Prop :=
  (∀ i, i < s.items.length → idxId s (s.items.getD i 0) = (i : Int)) ∧
  (∀ id, id < s.store.length → id ∉ s.items → idxId s id < 0)

/-- Well-formedness of a queue state. -/
def Wf (s : PriorityQueue T) : Prop := Bounded s ∧ s.items.Nodup ∧ IndexOk s

/-- The `container/heap` invariant up to boundary `n`:
`!h.Less(j, i)` for every child `j < n` of `i`. -/
def HpN (s : PriorityQueue T) (n : Nat) : Prop :=
  ∀ c, 0 < c → c < n → lessPQ s c ((c - 1) / 2) = false

/-- The heap invariant on the whole slice. -/
def Hp (s : PriorityQueue T) : Prop := HpN s (lenPQ s)

/-- A strict weak ordering, stated on a Bool comparator. -/
structure IsSWO {α : Type} (less : α → α → Bool) : Prop where
  irrefl : ∀ a, less a a = false
  trans : ∀ a b c, less a b = true → less b c = true → less a c = true
  incompTrans : ∀ a b c, less a b = false → less b a = false →
    less b c = false → less c b = false → less a c = false

theorem IsSWO.asymm {α : Type} {less : α → α → Bool} (h : IsSWO less)
    {a b : α} (hab : less a b = true) : less b a = false := by
  cases hba : less b a with
  | false => rfl
  | true =>
      exfalso
      have h2 := h.trans a b a hab hba
      rw [h.irrefl a] at h2
      exact Bool.false_ne_true h2

/-- Negative transitivity, the form of transitivity the heap proofs use:
`¬(b < a)` and `¬(c < b)` imply `¬(c < a)`. -/
theorem IsSWO.negTrans {α : Type} {less : α → α → Bool} (h : IsSWO less)
    {a b c : α} (hba : less b a = false) (hcb : less c b = false) :
    less c a = false := by
  cases hca : less c a with
  | false => rfl
  | true =>
      exfalso
      cases hab : less a b with
      | true =>
          have h2 := h.trans c a b hca hab
          rw [hcb] at h2
          exact Bool.false_ne_true h2
      | false =>
          cases hbc : less b c with
          | true =>
              have h2 := h.trans b c a hbc hca
              rw [hba] at h2
              exact Bool.false_ne_true h2
          | false =>
              have h2 := h.incompTrans c b a hcb hbc hba hab
              rw [hca] at h2
              simp at h2

theorem length_setIndex (st : List (Item T)) (id : Nat) (ix : Int) :
    (setIndex st id ix).length = st.length := by
  unfold setIndex; cases h : st[id]? <;> simp

theorem getD_setIndex_value (st : List (Item T)) (id : Nat) (ix : Int) (k : Nat) :
    ((setIndex st id ix).getD k default).value = (st.getD k default).value := by
  unfold setIndex
  cases h : st[id]? with
  | none => rfl
  | some it =>
      rw [List.getD_eq_getElem?_getD, List.getD_eq_getElem?_getD]
      by_cases hk : k = id
      · subst hk
        rw [List.getElem?_set_eq_of_lt _ (List.getElem?_eq_some.mp h).1, h]
        rfl
      · rw [List.getElem?_set_ne (fun hc => hk hc.symm)]

theorem getD_setIndex_idx_self (st : List (Item T)) (id : Nat) (ix : Int)
    (h : id < st.length) : ((setIndex st id ix).getD id default).index = ix := by
  unfold setIndex
  cases h2 : st[id]? with
  | none =>
      exact absurd (List.getElem?_eq_none_iff.mp h2) (by omega)
  | some it =>
      rw [List.getD_eq_getElem?_getD, List.getElem?_set_eq_of_lt _ (List.getElem?_eq_some.mp h2).1]
      rfl

theorem getD_setIndex_idx_ne (st : List (Item T)) (id : Nat) (ix : Int)
    {k : Nat} (h : k ≠ id) :
    ((setIndex st id ix).getD k default).index = (st.getD k default).index := by
  unfold setIndex
  cases h2 : st[id]? with
  | none => rfl
  | some it =>
      rw [List.getD_eq_getElem?_getD, List.getElem?_set_ne (fun hc => h hc.symm),
        List.getD_eq_getElem?_getD]

theorem getD_set_set (l : List Nat) (i j k : Nat) (hi : i < l.length)
    (hj : j < l.length) :
    ((l.set i (l.getD j 0)).set j (l.getD i 0)).getD k 0
      = if k = j then l.getD i 0 else if k = i then l.getD j 0 else l.getD k 0 := by
  rw [List.getD_eq_getElem?_getD]
  by_cases hkj : k = j
  · subst hkj
    rw [List.getElem?_set_eq_of_lt _ (by simpa using hj)]
    simp
  · rw [List.getElem?_set_ne (fun hc => hkj hc.symm)]
    by_cases hki : k = i
    · subst hki
      rw [List.getElem?_set_eq_of_lt _ hi]
      simp [hkj]
    · rw [List.getElem?_set_ne (fun hc => hki hc.symm)]
      simp [hkj, hki]

theorem set_set_perm (l : List Nat) (i j : Nat) (hi : i < l.length)
    (hj : j < l.length) :
    List.Perm ((l.set i (l.getD j 0)).set j (l.getD i 0)) l := by
  rw [List.perm_iff_count]
  intro a
  have hj2 : j < (l.set i (l.getD j 0)).length := by simpa using hj
  have hgdi : l.getD i 0 = l[i] := List.getD_eq_getElem l 0 hi
  have hgdj : l.getD j 0 = l[j] := List.getD_eq_getElem l 0 hj
  rw [List.count_set _ _ _ _ hj2, List.count_set _ _ _ _ hi]
  simp only [List.getElem_set, hgdi, hgdj]
  have hci : l[i] = a → 1 ≤ List.count a l := fun h =>
    List.count_pos_iff.mpr (h ▸ List.getElem_mem hi)
  have hcj : l[j] = a → 1 ≤ List.count a l := fun h =>
    List.count_pos_iff.mpr (h ▸ List.getElem_mem hj)
  by_cases hij : i = j
  · subst hij
    simp only [if_pos rfl]
    split_ifs with h1 h2 <;> simp_all [beq_iff_eq] <;> omega
  · rw [if_neg hij]
    split_ifs with h1 h2 h3 h4 <;> simp_all [beq_iff_eq] <;> omega

theorem swapPQ_facts (s : PriorityQueue T) (i j : Nat) (hi : i < lenPQ s)
    (hj : j < lenPQ s) :
    List.Perm (swapPQ s i j).items s.items ∧
    (swapPQ s i j).store.length = s.store.length ∧
    (swapPQ s i j).less = s.less ∧
    lenPQ (swapPQ s i j) = lenPQ s ∧
    (∀ id, valId (swapPQ s i j) id = valId s id) ∧
    (∀ k, valAtPos (swapPQ s i j) k
        = if k = j then valAtPos s i else if k = i then valAtPos s j
          else valAtPos s k) := by
  unfold lenPQ at hi hj
  have hguard : i < s.items.length ∧ j < s.items.length := ⟨hi, hj⟩
  have hres : swapPQ s i j =
      { s with items := (s.items.set i (s.items.getD j 0)).set j (s.items.getD i 0),
               store := setIndex (setIndex s.store (s.items.getD j 0) i)
                          (s.items.getD i 0) j } := by
    unfold swapPQ
    rw [if_pos hguard]
  rw [hres]
  have hvalid : ∀ id, valId { s with
      items := (s.items.set i (s.items.getD j 0)).set j (s.items.getD i 0),
      store := setIndex (setIndex s.store (s.items.getD j 0) i)
                 (s.items.getD i 0) j } id = valId s id := by
    intro id
    unfold valId
    simp only
    rw [getD_setIndex_value, getD_setIndex_value]
  refine ⟨set_set_perm _ _ _ hi hj, by simp [length_setIndex], rfl, by simp [lenPQ], hvalid, ?_⟩
  intro k
  unfold valAtPos
  simp only
  rw [hvalid (((s.items.set i (s.items.getD j 0)).set j (s.items.getD i 0)).getD k 0)]
  rw [getD_set_set _ _ _ _ hi hj]
  split_ifs <;> rfl

theorem swapPQ_wf {s : PriorityQueue T} (hwf : Wf s) {i j : Nat}
    (hi : i < lenPQ s) (hj : j < lenPQ s) : Wf (swapPQ s i j) := by
  obtain ⟨hb, hnd, hpos, hneg⟩ := hwf
  obtain ⟨hperm, hstlen, hless, hlen, hvalid, hvap⟩ := swapPQ_facts s i j hi hj
  have hitems : (swapPQ s i j).items
      = (s.items.set i (s.items.getD j 0)).set j (s.items.getD i 0) := by
    unfold swapPQ
    rw [if_pos ⟨hi, hj⟩]
  have hstore : (swapPQ s i j).store
      = setIndex (setIndex s.store (s.items.getD j 0) i) (s.items.getD i 0) j := by
    unfold swapPQ
    rw [if_pos ⟨hi, hj⟩]
  have hbi : s.items.getD i 0 ∈ s.items := by
    rw [List.getD_eq_getElem s.items 0 hi]; exact List.getElem_mem hi
  have hbj : s.items.getD j 0 ∈ s.items := by
    rw [List.getD_eq_getElem s.items 0 hj]; exact List.getElem_mem hj
  have hinj : ∀ p q, p < s.items.length → q < s.items.length →
      s.items.getD p 0 = s.items.getD q 0 → p = q := by
    intro p q hp hq he
    rw [List.getD_eq_getElem s.items 0 hp, List.getD_eq_getElem s.items 0 hq] at he
    exact (List.Nodup.getElem_inj_iff hnd).mp he
  refine ⟨?_, hperm.nodup_iff.mpr hnd, ?_, ?_⟩
  · intro id hid
    rw [hstlen]
    exact hb id (hperm.mem_iff.mp hid)
  · -- live indices
    intro p hp0
    have hp : p < s.items.length := by
      have h3 := hlen
      unfold lenPQ at h3
      omega
    have hgd : (swapPQ s i j).items.getD p 0
        = if p = j then s.items.getD i 0 else if p = i then s.items.getD j 0
          else s.items.getD p 0 := by
      rw [hitems]
      exact getD_set_set _ _ _ _ hi hj
    unfold idxId
    rw [hstore, hgd]
    by_cases hpj : p = j
    · rw [if_pos hpj, hpj]
      rw [getD_setIndex_idx_self _ _ _ (by rw [length_setIndex]; exact hb _ hbi)]
    · rw [if_neg hpj]
      by_cases hpi : p = i
      · rw [if_pos hpi, hpi]
        have hij2 : ¬ i = j := fun he => hpj (hpi.trans he)
        have hne : s.items.getD j 0 ≠ s.items.getD i 0 := by
          intro he
          exact hij2 (hinj j i hj hi he).symm
        rw [getD_setIndex_idx_ne _ _ _ hne, getD_setIndex_idx_self _ _ _ (hb _ hbj)]
      · rw [if_neg hpi]
        have hne1 : s.items.getD p 0 ≠ s.items.getD i 0 := fun he =>
          hpi (hinj p i hp hi he)
        have hne2 : s.items.getD p 0 ≠ s.items.getD j 0 := fun he =>
          hpj (hinj p j hp hj he)
        rw [getD_setIndex_idx_ne _ _ _ hne1, getD_setIndex_idx_ne _ _ _ hne2]
        exact (hpos p hp :)
  · -- removed items stay negative
    intro id hid hnot
    rw [hstlen] at hid
    have hnot2 : id ∉ s.items := fun hmem => hnot (hperm.mem_iff.mpr hmem)
    have hne1 : id ≠ s.items.getD i 0 := fun he => hnot2 (he ▸ hbi)
    have hne2 : id ≠ s.items.getD j 0 := fun he => hnot2 (he ▸ hbj)
    unfold idxId
    rw [hstore, getD_setIndex_idx_ne _ _ _ hne1, getD_setIndex_idx_ne _ _ _ hne2]
    exact hneg id hid hnot2

theorem upPQ_eq (s : PriorityQueue T) (j : Nat) :
    upPQ s j = if (j - 1) / 2 = j ∨ lessPQ s j ((j - 1) / 2) = false then s
               else upPQ (swapPQ s ((j - 1) / 2) j) ((j - 1) / 2) := by
  rw [upPQ]

theorem downLoopPQ_eq (s : PriorityQueue T) (i n : Nat) :
    downLoopPQ s i n =
      if 2 * i + 1 ≥ n then (s, i)
      else if lessPQ s (minChild s i n) i = false then (s, i)
      else downLoopPQ (swapPQ s i (minChild s i n)) (minChild s i n) n := by
  rw [downLoopPQ]
  by_cases h : 2 * i + 1 ≥ n <;> simp [h]

set_option maxHeartbeats 1600000 in
/-- Correctness of `container/heap.up`: sifting up from `j` restores the
heap invariant below boundary `n`, permutes the pointer slice, touches no
position above `j`, and preserves well-formedness, the arena values and the
comparator. -/
theorem upPQ_spec {n : Nat} :
    ∀ (j : Nat) (s : PriorityQueue T), IsSWO s.less → Wf s → n ≤ lenPQ s → j < n →
    (∀ c, 0 < c → c < n → c ≠ j → lessPQ s c ((c - 1) / 2) = false) →
    (0 < j → ∀ c, c < n → (c - 1) / 2 = j → lessPQ s c ((j - 1) / 2) = false) →
    Wf (upPQ s j) ∧
    List.Perm (upPQ s j).items s.items ∧
    (upPQ s j).store.length = s.store.length ∧
    (upPQ s j).less = s.less ∧
    (∀ id, valId (upPQ s j) id = valId s id) ∧
    (∀ k, j < k → (upPQ s j).items.getD k 0 = s.items.getD k 0) ∧
    (∀ c, 0 < c → c < n → lessPQ (upPQ s j) c ((c - 1) / 2) = false) := by
  intro j
  induction j using Nat.strong_induction_on with
  | h j ih =>
  intro s hswo hwf hn hj h1 h2
  rw [upPQ_eq]
  by_cases hcond : (j - 1) / 2 = j ∨ lessPQ s j ((j - 1) / 2) = false
  · rw [if_pos hcond]
    refine ⟨hwf, List.Perm.refl _, rfl, rfl, fun id => rfl, fun k hk => rfl, ?_⟩
    intro c hc0 hcn
    by_cases hcj : c = j
    · subst hcj
      rcases hcond with hcj0 | hle
      · omega
      · exact hle
    · exact h1 c hc0 hcn hcj
  · rw [if_neg hcond]
    push_neg at hcond
    obtain ⟨hij, hless⟩ := hcond
    have hlessT : lessPQ s j ((j - 1) / 2) = true := by
      cases hx : lessPQ s j ((j - 1) / 2)
      · exact absurd hx hless
      · rfl
    have hj0 : 0 < j := by
      rcases Nat.eq_zero_or_pos j with h0 | h0
      · subst h0; simp at hij
      · exact h0
    set i := (j - 1) / 2 with hidef
    have hilt : i < j := by omega
    have hin : i < n := by omega
    have hiL : i < lenPQ s := by omega
    have hjL : j < lenPQ s := by omega
    obtain ⟨hperm, hstlen, hless2, hlen, hvalid, hvap⟩ := swapPQ_facts s i j hiL hjL
    have hswo2 : IsSWO (swapPQ s i j).less := by rw [hless2]; exact hswo
    have hwf2 : Wf (swapPQ s i j) := swapPQ_wf hwf hiL hjL
    have hn2 : n ≤ lenPQ (swapPQ s i j) := by omega
    have hvi : valAtPos (swapPQ s i j) i = valAtPos s j := by
      rw [hvap i, if_neg (by omega), if_pos rfl]
    have hvj : valAtPos (swapPQ s i j) j = valAtPos s i := by
      rw [hvap j, if_pos rfl]
    have hvother : ∀ k, k ≠ i → k ≠ j → valAtPos (swapPQ s i j) k = valAtPos s k := by
      intro k hki hkj
      rw [hvap k, if_neg hkj, if_neg hki]
    have hlessPQ2 : ∀ k m, lessPQ (swapPQ s i j) k m
        = s.less (valAtPos (swapPQ s i j) k) (valAtPos (swapPQ s i j) m) := by
      intro k m
      unfold lessPQ
      rw [hless2]
    have hlessT2 : s.less (valAtPos s j) (valAtPos s i) = true := hlessT
    have hyx : s.less (valAtPos s i) (valAtPos s j) = false := hswo.asymm hlessT2
    -- precondition (1) for the recursive call at i
    have h1' : ∀ c, 0 < c → c < n → c ≠ i →
        lessPQ (swapPQ s i j) c ((c - 1) / 2) = false := by
      intro c hc0 hcn hci
      by_cases hcj : c = j
      · subst hcj
        rw [hlessPQ2, ← hidef, hvj, hvi]
        exact hyx
      · by_cases hpi : (c - 1) / 2 = i
        · -- sibling of j under i
          rw [hlessPQ2, hpi, hvi, hvother c hci hcj]
          have hold : lessPQ s c ((c - 1) / 2) = false := h1 c hc0 hcn hcj
          rw [hpi] at hold
          have hold2 : s.less (valAtPos s c) (valAtPos s i) = false := hold
          exact hswo.negTrans hyx hold2
        · by_cases hpj : (c - 1) / 2 = j
          · -- c is a child of j: use (2)
            rw [hlessPQ2, hpj, hvj, hvother c hci hcj]
            exact h2 hj0 c hcn hpj
          · rw [hlessPQ2, hvother c hci hcj, hvother _ hpi hpj]
            exact h1 c hc0 hcn hcj
    -- precondition (2) for the recursive call at i
    have h2' : 0 < i → ∀ c, c < n → (c - 1) / 2 = i →
        lessPQ (swapPQ s i j) c ((i - 1) / 2) = false := by
      intro hi0 c hcn hpi
      have hc0 : 0 < c := by omega
      have hgi : (i - 1) / 2 ≠ i := by omega
      have hgj : (i - 1) / 2 ≠ j := by omega
      have hedgei : lessPQ s i ((i - 1) / 2) = false := h1 i hi0 hin (by omega)
      have hedgei2 : s.less (valAtPos s i) (valAtPos s ((i - 1) / 2)) = false := hedgei
      by_cases hcj : c = j
      · subst hcj
        rw [hlessPQ2, hvj, hvother _ hgi hgj]
        exact hedgei2
      · have hci : c ≠ i := by omega
        rw [hlessPQ2, hvother c hci hcj, hvother _ hgi hgj]
        have hold : lessPQ s c ((c - 1) / 2) = false := h1 c hc0 hcn hcj
        rw [hpi] at hold
        have hold2 : s.less (valAtPos s c) (valAtPos s i) = false := hold
        exact hswo.negTrans hedgei2 hold2
    obtain ⟨ihWf, ihPerm, ihStlen, ihLess, ihValid, ihGetD, ihHp⟩ :=
      ih i hilt (swapPQ s i j) hswo2 hwf2 hn2 hin h1' h2'
    refine ⟨ihWf, ihPerm.trans hperm, by rw [ihStlen, hstlen],
      by rw [ihLess, hless2], ?_, ?_, ?_⟩
    · intro id
      rw [ihValid id, hvalid id]
    · intro k hk
      rw [ihGetD k (by omega)]
      have hitems : (swapPQ s i j).items
          = (s.items.set i (s.items.getD j 0)).set j (s.items.getD i 0) := by
        unfold swapPQ
        rw [if_pos ⟨hiL, hjL⟩]
      rw [hitems, getD_set_set _ _ _ _ hiL hjL]
      rw [if_neg (by omega), if_neg (by omega)]
    · intro c hc0 hcn
      exact ihHp c hc0 hcn

set_option maxHeartbeats 1600000 in
/-- Correctness of the `container/heap.down` loop: sifting down from `i`
within boundary `n` restores the heap invariant everywhere except possibly
the upward edge of the final position, which holds whenever the element
actually moved; an unmoved sift leaves the state untouched. -/
theorem downLoopPQ_spec {n : Nat} :
    ∀ (m i : Nat) (s : PriorityQueue T), n - i ≤ m → IsSWO s.less → Wf s →
    n ≤ lenPQ s → i < n →
    (∀ c, 0 < c → c < n → c ≠ i → (c - 1) / 2 ≠ i →
      lessPQ s c ((c - 1) / 2) = false) →
    (0 < i → ∀ c, c < n → (c - 1) / 2 = i → lessPQ s c ((i - 1) / 2) = false) →
    Wf (downLoopPQ s i n).1 ∧
    List.Perm (downLoopPQ s i n).1.items s.items ∧
    (downLoopPQ s i n).1.store.length = s.store.length ∧
    (downLoopPQ s i n).1.less = s.less ∧
    (∀ id, valId (downLoopPQ s i n).1 id = valId s id) ∧
    (∀ k, n ≤ k → (downLoopPQ s i n).1.items.getD k 0 = s.items.getD k 0) ∧
    i ≤ (downLoopPQ s i n).2 ∧ (downLoopPQ s i n).2 < n ∧
    ((downLoopPQ s i n).2 = i → (downLoopPQ s i n).1 = s) ∧
    (∀ c, 0 < c → c < n → c ≠ (downLoopPQ s i n).2 →
      lessPQ (downLoopPQ s i n).1 c ((c - 1) / 2) = false) ∧
    (i < (downLoopPQ s i n).2 →
      lessPQ (downLoopPQ s i n).1 (downLoopPQ s i n).2
        (((downLoopPQ s i n).2 - 1) / 2) = false) := by
  intro m
  induction m with
  | zero =>
      intro i s hm _ _ _ hi _ _
      omega
  | succ m ihm =>
    intro i s hm hswo hwf hn hi h1 h2
    rw [downLoopPQ_eq]
    by_cases hnc : 2 * i + 1 ≥ n
    · rw [if_pos hnc]
      refine ⟨hwf, List.Perm.refl _, rfl, rfl, fun id => rfl, fun k hk => rfl,
        le_rfl, hi, fun _ => rfl, ?_, ?_⟩
      · intro c hc0 hcn hci
        by_cases hpc : (c - 1) / 2 = i
        · omega
        · exact h1 c hc0 hcn hci hpc
      · intro hlt
        simp only at hlt
        omega
    · rw [if_neg hnc]
      have hjgt := minChild_gt s i n
      have hjlt := minChild_lt s i n (by omega)
      set j := minChild s i n with hjdef
      have hpj : (j - 1) / 2 = i := by
        rw [hjdef]; unfold minChild; split <;> omega
      have hmc : (j = 2 * i + 2 ∧ 2 * i + 2 < n ∧
            lessPQ s (2 * i + 2) (2 * i + 1) = true)
          ∨ (j = 2 * i + 1 ∧
            ¬(2 * i + 2 < n ∧ lessPQ s (2 * i + 2) (2 * i + 1) = true)) := by
        rw [hjdef]; unfold minChild
        split
        · exact Or.inl ⟨rfl, by assumption⟩
        · exact Or.inr ⟨rfl, by assumption⟩
      have hsib : ∀ c, 0 < c → c < n → (c - 1) / 2 = i → c ≠ j →
          s.less (valAtPos s c) (valAtPos s j) = false := by
        intro c hc0 hcn hpc hcj
        rcases hmc with ⟨hj2, hlt2, hltT⟩ | ⟨hj1, hncond⟩
        · have hc1 : c = 2 * i + 1 := by omega
          have hltT2 : s.less (valAtPos s (2 * i + 2)) (valAtPos s (2 * i + 1))
              = true := hltT
          rw [hc1, hj2]
          exact hswo.asymm hltT2
        · have hc2 : c = 2 * i + 2 := by omega
          have hfx : lessPQ s (2 * i + 2) (2 * i + 1) = false := by
            cases hx : lessPQ s (2 * i + 2) (2 * i + 1)
            · rfl
            · exact absurd ⟨by omega, hx⟩ hncond
          rw [hc2, hj1]
          exact hfx
      by_cases hbr : lessPQ s j i = false
      · rw [if_pos hbr]
        have hbr2 : s.less (valAtPos s j) (valAtPos s i) = false := hbr
        refine ⟨hwf, List.Perm.refl _, rfl, rfl, fun id => rfl, fun k hk => rfl,
          le_rfl, hi, fun _ => rfl, ?_, ?_⟩
        · intro c hc0 hcn hci
          by_cases hpc : (c - 1) / 2 = i
          · by_cases hcj : c = j
            · rw [hpc]
              rw [hcj]
              exact hbr
            · rw [hpc]
              exact hswo.negTrans hbr2 (hsib c hc0 hcn hpc hcj)
          · exact h1 c hc0 hcn hci hpc
        · intro hlt
          simp only at hlt
          omega
      · rw [if_neg hbr]
        have hlessT : lessPQ s j i = true := by
          cases hx : lessPQ s j i
          · exact absurd hx hbr
          · rfl
        have hlessT2 : s.less (valAtPos s j) (valAtPos s i) = true := hlessT
        have hzw : s.less (valAtPos s i) (valAtPos s j) = false := hswo.asymm hlessT2
        have hiL : i < lenPQ s := by omega
        have hjL : j < lenPQ s := by omega
        obtain ⟨hperm, hstlen, hless2, hlen, hvalid, hvap⟩ := swapPQ_facts s i j hiL hjL
        have hswo2 : IsSWO (swapPQ s i j).less := by rw [hless2]; exact hswo
        have hwf2 : Wf (swapPQ s i j) := swapPQ_wf hwf hiL hjL
        have hn2 : n ≤ lenPQ (swapPQ s i j) := by omega
        have hvi : valAtPos (swapPQ s i j) i = valAtPos s j := by
          rw [hvap i, if_neg (by omega), if_pos rfl]
        have hvj : valAtPos (swapPQ s i j) j = valAtPos s i := by
          rw [hvap j, if_pos rfl]
        have hvother : ∀ k, k ≠ i → k ≠ j →
            valAtPos (swapPQ s i j) k = valAtPos s k := by
          intro k hki hkj
          rw [hvap k, if_neg hkj, if_neg hki]
        have hlessPQ2 : ∀ k u, lessPQ (swapPQ s i j) k u
            = s.less (valAtPos (swapPQ s i j) k) (valAtPos (swapPQ s i j) u) := by
          intro k u
          unfold lessPQ
          rw [hless2]
        have h1' : ∀ c, 0 < c → c < n → c ≠ j → (c - 1) / 2 ≠ j →
            lessPQ (swapPQ s i j) c ((c - 1) / 2) = false := by
          intro c hc0 hcn hcj hpcj
          by_cases hci : c = i
          · have hi0 : 0 < i := by omega
            have hgi : (i - 1) / 2 ≠ i := by omega
            have hgj : (i - 1) / 2 ≠ j := by omega
            rw [hci, hlessPQ2, hvi, hvother _ hgi hgj]
            exact h2 hi0 j hjlt hpj
          · by_cases hpc : (c - 1) / 2 = i
            · rw [hlessPQ2, hpc, hvi, hvother c hci hcj]
              exact hsib c hc0 hcn hpc hcj
            · rw [hlessPQ2, hvother c hci hcj, hvother _ hpc hpcj]
              exact h1 c hc0 hcn hci hpc
        have h2' : 0 < j → ∀ c, c < n → (c - 1) / 2 = j →
            lessPQ (swapPQ s i j) c ((j - 1) / 2) = false := by
          intro _ c hcn hpc
          have hci : c ≠ i := by omega
          have hcj : c ≠ j := by omega
          rw [hlessPQ2, hpj, hvi, hvother c hci hcj]
          have hh := h1 c (by omega) hcn hci (by rw [hpc]; omega)
          rw [hpc] at hh
          exact hh
        obtain ⟨ihWf, ihPerm, ihStlen, ihLess, ihValid, ihGetD, ihLe, ihLt,
          ihUnm, ihA, ihB⟩ :=
          ihm j (swapPQ s i j) (by omega) hswo2 hwf2 hn2 hjlt h1' h2'
        have hitems : (swapPQ s i j).items
            = (s.items.set i (s.items.getD j 0)).set j (s.items.getD i 0) := by
          unfold swapPQ
          rw [if_pos ⟨hiL, hjL⟩]
        refine ⟨ihWf, ihPerm.trans hperm, by rw [ihStlen, hstlen],
          by rw [ihLess, hless2], ?_, ?_, by omega, ihLt, ?_, ihA, ?_⟩
        · intro id
          rw [ihValid id, hvalid id]
        · intro k hk
          rw [ihGetD k hk, hitems, getD_set_set _ _ _ _ hiL hjL]
          rw [if_neg (by omega), if_neg (by omega)]
        · intro heq
          omega
        · intro hlt
          by_cases hstep : j < (downLoopPQ (swapPQ s i j) j n).2
          · exact ihB hstep
          · have heq : (downLoopPQ (swapPQ s i j) j n).2 = j := by omega
            rw [ihUnm heq, heq, hpj, hlessPQ2, hvj, hvi]
            exact hzw

theorem getD_take (l : List Nat) (m p d : Nat) (h : p < m) :
    (l.take m).getD p d = l.getD p d := by
  rw [List.getD_eq_getElem?_getD, List.getD_eq_getElem?_getD, List.getElem?_take]
  simp [h]

theorem take_concat_getD (l : List Nat) (h : 0 < l.length) :
    l.take (l.length - 1) ++ [l.getD (l.length - 1) 0] = l := by
  rw [List.getD_eq_getElem l 0 (by omega), ← List.dropLast_eq_take,
    ← List.getLast_eq_getElem]
  exact List.dropLast_append_getLast (by intro hc; subst hc; simp at h)

theorem getLast?_eq_getD (l : List Nat) (h : 0 < l.length) :
    l.getLast? = some (l.getD (l.length - 1) 0) := by
  rw [List.getLast?_eq_getElem?, List.getD_eq_getElem?_getD]
  cases hx : l[l.length - 1]? with
  | none =>
      rw [List.getElem?_eq_none_iff] at hx
      omega
  | some a => rfl

theorem list_set_self {α : Type} (l : List α) (n : Nat) (h : n < l.length) :
    l.set n l[n] = l := by
  apply List.ext_getElem?
  intro k
  by_cases hk : k = n
  · subst hk
    rw [List.getElem?_set_eq_of_lt _ h, List.getElem?_eq_getElem h]
  · rw [List.getElem?_set_ne (fun hc => hk hc.symm)]

theorem setIndex_noop {st : List (Item T)} {id : Nat} {ix : Int}
    (h : (st.getD id default).index = ix) : setIndex st id ix = st := by
  unfold setIndex
  cases h2 : st[id]? with
  | none => rfl
  | some it =>
      show st.set id { it with index := ix } = st
      have hlt := (List.getElem?_eq_some.mp h2).1
      have hgg : st[id] = it := by
        have h3 := List.getElem?_eq_getElem hlt
        rw [h2] at h3
        exact (Option.some_inj.mp h3).symm
      have hix : it.index = ix := by
        have heq : st.getD id default = it := by
          rw [List.getD_eq_getElem?_getD, h2]
          rfl
        rw [heq] at h
        exact h
      have hit : { it with index := ix } = it := by
        cases it
        cases hix
        rfl
      rw [hit, ← hgg]
      exact list_set_self st id hlt

theorem swapPQ_self {s : PriorityQueue T} (hwf : Wf s) {i : Nat}
    (hi : i < lenPQ s) : swapPQ s i i = s := by
  obtain ⟨hb, hnd, hpos, hneg⟩ := hwf
  have hitems : (s.items.set i (s.items.getD i 0)).set i (s.items.getD i 0)
      = s.items := by
    rw [List.set_set, List.getD_eq_getElem s.items 0 hi]
    exact list_set_self _ _ hi
  have hidx : (s.store.getD (s.items.getD i 0) default).index = (i : Int) :=
    hpos i hi
  have hstore : setIndex (setIndex s.store (s.items.getD i 0) (i : Int))
      (s.items.getD i 0) (i : Int) = s.store := by
    rw [setIndex_noop hidx, setIndex_noop hidx]
  show (if i < s.items.length ∧ i < s.items.length then
      { s with items := (s.items.set i (s.items.getD i 0)).set i (s.items.getD i 0),
               store := setIndex (setIndex s.store (s.items.getD i 0) (i : Int))
                          (s.items.getD i 0) (i : Int) }
    else s) = s
  rw [if_pos ⟨hi, hi⟩, hitems, hstore]

theorem hp_root_min {s : PriorityQueue T} (hswo : IsSWO s.less) (hhp : Hp s) :
    ∀ k, k < lenPQ s → s.less (valAtPos s k) (valAtPos s 0) = false := by
  intro k
  induction k using Nat.strong_induction_on with
  | h k ih =>
    intro hk
    rcases Nat.eq_zero_or_pos k with rfl | hk0
    · exact hswo.irrefl _
    · have hedge : s.less (valAtPos s k) (valAtPos s ((k - 1) / 2)) = false :=
        hhp k hk0 hk
      have hpar := ih ((k - 1) / 2) (by omega) (by omega)
      exact hswo.negTrans hpar hedge

set_option maxHeartbeats 800000 in
/-- The heap-interface `Pop` on a nonempty well-formed queue removes the
last pointer, marks it removed and keeps everything else intact. -/
theorem popI_spec {s : PriorityQueue T} (hwf : Wf s) (hne : 0 < lenPQ s) :
    (popI s).1 = some (s.items.getD (lenPQ s - 1) 0) ∧
    Wf (popI s).2 ∧
    (popI s).2.items = s.items.take (lenPQ s - 1) ∧
    (popI s).2.store.length = s.store.length ∧
    (popI s).2.less = s.less ∧
    (∀ id, valId (popI s).2 id = valId s id) ∧
    lenPQ (popI s).2 = lenPQ s - 1 := by
  obtain ⟨hb, hnd, hpos, hneg⟩ := hwf
  have hlenpos : 0 < s.items.length := hne
  have hgl := getLast?_eq_getD s.items hlenpos
  have hres : popI s = (some (s.items.getD (s.items.length - 1) 0),
      { s with store := setIndex s.store (s.items.getD (s.items.length - 1) 0) (-1),
               items := s.items.take (s.items.length - 1) }) := by
    unfold popI
    rw [hgl]
  rw [hres]
  have hmem : s.items.getD (s.items.length - 1) 0 ∈ s.items := by
    rw [List.getD_eq_getElem s.items 0 (by omega)]
    exact List.getElem_mem _
  have hlt : s.items.getD (s.items.length - 1) 0 < s.store.length := hb _ hmem
  have hinj : ∀ p q, p < s.items.length → q < s.items.length →
      s.items.getD p 0 = s.items.getD q 0 → p = q := by
    intro p q hp hq he
    rw [List.getD_eq_getElem s.items 0 hp, List.getD_eq_getElem s.items 0 hq] at he
    exact (List.Nodup.getElem_inj_iff hnd).mp he
  have hsplit := take_concat_getD s.items hlenpos
  refine ⟨rfl, ⟨?_, ?_, ?_, ?_⟩, rfl, by simp [length_setIndex], rfl, ?_, ?_⟩
  · -- Bounded
    intro id hid
    simp only at hid
    rw [length_setIndex]
    exact hb id ((List.take_sublist _ _).mem hid)
  · -- Nodup
    exact List.Nodup.sublist (List.take_sublist _ _) hnd
  · -- live indices
    intro p hp
    simp only [List.length_take] at hp ⊢
    have hp2 : p < s.items.length - 1 := by omega
    unfold idxId
    simp only
    rw [getD_take _ _ _ _ hp2]
    have hne2 : s.items.getD p 0 ≠ s.items.getD (s.items.length - 1) 0 := by
      intro he
      have := hinj p (s.items.length - 1) (by omega) (by omega) he
      omega
    rw [getD_setIndex_idx_ne _ _ _ hne2]
    exact hpos p (by omega)
  · -- removed items negative
    intro id hid hnot
    simp only at hid hnot
    rw [length_setIndex] at hid
    unfold idxId
    simp only
    by_cases hidl : id = s.items.getD (s.items.length - 1) 0
    · subst hidl
      rw [getD_setIndex_idx_self _ _ _ hlt]
      omega
    · rw [getD_setIndex_idx_ne _ _ _ hidl]
      have hnot2 : id ∉ s.items := by
        intro hmem2
        rw [← hsplit] at hmem2
        rcases List.mem_append.mp hmem2 with hm | hm
        · exact hnot hm
        · exact hidl (List.mem_singleton.mp hm)
      exact hneg id hid hnot2
  · -- values unchanged
    intro id
    unfold valId
    simp only
    rw [getD_setIndex_value]
  · -- length
    unfold lenPQ
    simp [List.length_take]

set_option maxHeartbeats 1600000 in
/-- `PushAndReturnItem` allocates a fresh item, pushes it with `heap.Push`
and returns its pointer: the heap stays well-formed and heap-ordered, the
new pointer is the old arena length, and all old values survive. -/
theorem pushAndReturnItem_spec {s : PriorityQueue T} (v : T)
    (hswo : IsSWO s.less) (hwf : Wf s) (hhp : Hp s) :
    (pushAndReturnItem s v).2 = s.store.length ∧
    Wf (pushAndReturnItem s v).1 ∧ Hp (pushAndReturnItem s v).1 ∧
    List.Perm (pushAndReturnItem s v).1.items (s.items ++ [s.store.length]) ∧
    (pushAndReturnItem s v).1.store.length = s.store.length + 1 ∧
    (pushAndReturnItem s v).1.less = s.less ∧
    valId (pushAndReturnItem s v).1 s.store.length = v ∧
    (∀ id, id < s.store.length → valId (pushAndReturnItem s v).1 id = valId s id) ∧
    lenPQ (pushAndReturnItem s v).1 = lenPQ s + 1 := by
  obtain ⟨hb, hnd, hpos, hneg⟩ := hwf
  have hfresh : ∀ id2 ∈ s.items, id2 ≠ s.store.length := by
    intro id2 hm he
    have := hb id2 hm
    omega
  have hgetm : ∀ k, k < s.items.length → s.items.getD k 0 ∈ s.items := by
    intro k hk
    rw [List.getD_eq_getElem s.items 0 hk]
    exact List.getElem_mem hk
  have hstApp : ∀ k, k < s.store.length →
      (s.store ++ [(⟨v, 0⟩ : Item T)]).getD k default = s.store.getD k default := by
    intro k hk
    rw [List.getD_eq_getElem?_getD, List.getD_eq_getElem?_getD,
      List.getElem?_append_left hk]
  have hstLast : (s.store ++ [(⟨v, 0⟩ : Item T)]).getD s.store.length default
      = ⟨v, 0⟩ := by
    rw [List.getD_eq_getElem?_getD, List.getElem?_concat_length]
    rfl
  set s2 : PriorityQueue T :=
    { items := s.items ++ [s.store.length],
      store := setIndex (s.store ++ [(⟨v, 0⟩ : Item T)]) s.store.length
        ((s.items.length : Int)),
      less := s.less } with hs2def
  have hres : pushAndReturnItem s v = (upPQ s2 (lenPQ s2 - 1), s.store.length) := by
    rfl
  have hlen2 : lenPQ s2 = s.items.length + 1 := by
    simp [hs2def, lenPQ]
  have hstlen2 : s2.store.length = s.store.length + 1 := by
    simp [hs2def, length_setIndex]
  -- arena reads in s2
  have hidxOld : ∀ k, k < s.store.length → idxId s2 k = idxId s k := by
    intro k hk
    unfold idxId
    rw [hs2def]
    simp only
    rw [getD_setIndex_idx_ne _ _ _ (by omega), hstApp k hk]
  have hidxNew : idxId s2 s.store.length = (s.items.length : Int) := by
    unfold idxId
    rw [hs2def]
    simp only
    rw [getD_setIndex_idx_self _ _ _ (by simp)]
  have hvalOld : ∀ k, k < s.store.length → valId s2 k = valId s k := by
    intro k hk
    unfold valId
    rw [hs2def]
    simp only
    rw [getD_setIndex_value, hstApp k hk]
  have hvalNew : valId s2 s.store.length = v := by
    unfold valId
    rw [hs2def]
    simp only
    rw [getD_setIndex_value, hstLast]
  have hitems2 : ∀ k, k < s.items.length → s2.items.getD k 0 = s.items.getD k 0 := by
    intro k hk
    rw [hs2def]
    simp only
    rw [List.getD_eq_getElem?_getD, List.getD_eq_getElem?_getD,
      List.getElem?_append_left hk]
  have hitems2L : s2.items.getD s.items.length 0 = s.store.length := by
    rw [hs2def]
    simp only
    rw [List.getD_eq_getElem?_getD, List.getElem?_concat_length]
    rfl
  have hvap2 : ∀ k, k < s.items.length → valAtPos s2 k = valAtPos s k := by
    intro k hk
    unfold valAtPos
    rw [hitems2 k hk]
    exact hvalOld _ (hb _ (hgetm k hk))
  have hwf2 : Wf s2 := by
    refine ⟨?_, ?_, ?_, ?_⟩
    · intro id2 hm
      rw [hstlen2]
      rw [hs2def] at hm
      simp only at hm
      rcases List.mem_append.mp hm with hm2 | hm2
      · have := hb id2 hm2; omega
      · rw [List.mem_singleton] at hm2; omega
    · rw [hs2def]
      simp only
      rw [List.nodup_append]
      refine ⟨hnd, by simp, ?_⟩
      intro a ha hcontra
      rw [List.mem_singleton] at hcontra
      exact hfresh a ha hcontra
    · intro p hp
      have hp2 : p < s.items.length + 1 := by
        rw [hs2def] at hp
        simpa using hp
      by_cases hpl : p = s.items.length
      · rw [hpl, hitems2L, hidxNew]
      · have hp3 : p < s.items.length := by omega
        rw [hitems2 p hp3, hidxOld _ (hb _ (hgetm p hp3))]
        exact hpos p hp3
    · intro id2 hid2 hnot
      rw [hstlen2] at hid2
      have hne : id2 ≠ s.store.length := by
        intro he
        refine hnot ?_
        rw [hs2def, he]
        simp
      have hid3 : id2 < s.store.length := by omega
      rw [hidxOld _ hid3]
      refine hneg id2 hid3 ?_
      intro hm
      refine hnot ?_
      rw [hs2def]
      simp [hm]
  have hswo2 : IsSWO s2.less := hswo
  have hlessPQ2 : ∀ k u, k < s.items.length → u < s.items.length →
      lessPQ s2 k u = lessPQ s k u := by
    intro k u hk hu
    unfold lessPQ
    rw [hvap2 k hk, hvap2 u hu]
  have h1 : ∀ c, 0 < c → c < lenPQ s2 → c ≠ s.items.length →
      lessPQ s2 c ((c - 1) / 2) = false := by
    intro c hc0 hcn hcj
    have hc2 : c < s.items.length := by omega
    rw [hlessPQ2 c _ hc2 (by omega)]
    exact hhp c hc0 hc2
  have h2 : 0 < s.items.length → ∀ c, c < lenPQ s2 →
      (c - 1) / 2 = s.items.length →
      lessPQ s2 c ((s.items.length - 1) / 2) = false := by
    intro hj0 c hcn hpc
    omega
  obtain ⟨ihWf, ihPerm, ihStlen, ihLess, ihValid, ihGetD, ihHp⟩ :=
    upPQ_spec (n := lenPQ s2) s.items.length s2 hswo2 hwf2 le_rfl
      (by omega) h1 h2
  have hreseq : (pushAndReturnItem s v).1 = upPQ s2 (lenPQ s2 - 1) := by rw [hres]
  have hjeq : lenPQ s2 - 1 = s.items.length := by omega
  rw [hreseq, hjeq]
  refine ⟨?_, ihWf, ?_, ?_, ?_, ?_, ?_, ?_, ?_⟩
  · rw [hres]
  · -- heap order
    unfold Hp
    have hleneq : lenPQ (upPQ s2 s.items.length) = lenPQ s2 := by
      unfold lenPQ
      exact ihPerm.length_eq.trans rfl
    rw [hleneq]
    intro c hc0 hcn
    exact ihHp c hc0 hcn
  · exact ihPerm.trans (by rw [hs2def])
  · rw [ihStlen, hstlen2]
  · rw [ihLess]
  · rw [ihValid, hvalNew]
  · intro id2 hid2
    rw [ihValid, hvalOld _ hid2]
  · unfold lenPQ
    rw [ihPerm.length_eq]
    rw [hs2def]
    simp [lenPQ]

set_option maxHeartbeats 1600000 in
/-- `container/heap.Pop` on a nonempty well-formed heap-ordered queue:
`Swap(0, n-1)`, sift the swapped element down, then the interface `Pop`.
It removes exactly the old root pointer, and leaves a smaller
well-formed heap-ordered queue with values and comparator intact. -/
theorem heapPop_spec {s : PriorityQueue T} (hswo : IsSWO s.less) (hwf : Wf s)
    (hhp : Hp s) (hne : 0 < lenPQ s) :
    (heapPop s).1 = some (s.items.getD 0 0) ∧
    Wf (heapPop s).2 ∧ Hp (heapPop s).2 ∧
    (heapPop s).2.less = s.less ∧
    (∀ id, valId (heapPop s).2 id = valId s id) ∧
    List.Perm (s.items.getD 0 0 :: (heapPop s).2.items) s.items ∧
    (heapPop s).2.store.length = s.store.length ∧
    lenPQ (heapPop s).2 = lenPQ s - 1 := by
  have hheq : heapPop s
      = popI (downLoopPQ (swapPQ s 0 (lenPQ s - 1)) 0 (lenPQ s - 1)).1 := rfl
  by_cases hone : lenPQ s = 1
  · -- length 1: the swap and the sift are no-ops
    have hs1 : swapPQ s 0 (lenPQ s - 1) = s := by
      rw [hone]
      exact swapPQ_self hwf (by omega)
    have hd : (downLoopPQ s 0 (lenPQ s - 1)).1 = s := by
      rw [downLoopPQ_eq, if_pos (by omega)]
    rw [hheq, hs1, hd]
    obtain ⟨p1, p2, p3, p4, p5, p6, p7⟩ := popI_spec hwf hne
    refine ⟨by rw [p1, hone], p2, ?_, p5, p6, ?_, p4, p7⟩
    · unfold Hp HpN
      intro c hc0 hcn
      rw [p7, hone] at hcn
      omega
    · rw [p3]
      have h0 : s.items.length = 1 := hone
      have hTC := take_concat_getD s.items hne
      rw [h0] at hTC
      simp only [Nat.sub_self, List.take_zero, List.nil_append] at hTC
      have h1 : lenPQ s - 1 = 0 := by omega
      rw [h1, List.take_zero, hTC]
  · -- length at least 2
    set n := lenPQ s - 1 with hndef
    have hn1 : 1 ≤ n := by omega
    have hnlt : n < lenPQ s := by omega
    have h0lt : 0 < lenPQ s := hne
    obtain ⟨sPerm, sStlen, sLess, sLen, sValid, sVap⟩ :=
      swapPQ_facts s 0 n h0lt hnlt
    have hwf1 : Wf (swapPQ s 0 n) := swapPQ_wf hwf h0lt hnlt
    set s1 := swapPQ s 0 n with hs1def
    have hitems1 : s1.items
        = (s.items.set 0 (s.items.getD n 0)).set n (s.items.getD 0 0) := by
      rw [hs1def]
      unfold swapPQ
      rw [if_pos ⟨h0lt, hnlt⟩]
    have hgd1 : ∀ k, s1.items.getD k 0
        = if k = n then s.items.getD 0 0 else if k = 0 then s.items.getD n 0
          else s.items.getD k 0 := by
      intro k
      rw [hitems1]
      exact getD_set_set _ _ _ _ h0lt hnlt
    have hswo1 : IsSWO s1.less := by rw [sLess]; exact hswo
    have h1 : ∀ c, 0 < c → c < n → c ≠ 0 → (c - 1) / 2 ≠ 0 →
        lessPQ s1 c ((c - 1) / 2) = false := by
      intro c hc0 hcn hcne hpne
      have hplt : (c - 1) / 2 < c := by omega
      unfold lessPQ
      rw [sLess, sVap c, sVap ((c - 1) / 2)]
      rw [if_neg (by omega), if_neg (by omega), if_neg (by omega), if_neg hpne]
      exact hhp c hc0 (by omega)
    have h2 : 0 < 0 → ∀ c, c < n → (c - 1) / 2 = 0 →
        lessPQ s1 c ((0 - 1) / 2) = false := by
      intro h0
      omega
    obtain ⟨dWf, dPerm, dStlen, dLess, dValid, dHigh, dLe, dLt, dUnmoved,
      dEdges, dUpEdge⟩ :=
      downLoopPQ_spec (n := n) n 0 s1 (by omega) hswo1 hwf1
        (by rw [sLen]; omega) (by omega) h1 h2
    set r := downLoopPQ s1 0 n with hrdef
    have hHpN : ∀ c, 0 < c → c < n → lessPQ r.1 c ((c - 1) / 2) = false := by
      intro c hc0 hcn
      by_cases hcr : c = r.2
      · rw [hcr]
        exact dUpEdge (by omega)
      · exact dEdges c hc0 hcn hcr
    have hlenr : lenPQ r.1 = lenPQ s := by
      unfold lenPQ
      rw [dPerm.length_eq]
      exact sLen
    obtain ⟨p1, p2, p3, p4, p5, p6, p7⟩ := popI_spec dWf (by omega)
    have hgdn : r.1.items.getD n 0 = s.items.getD 0 0 := by
      rw [dHigh n le_rfl, hgd1 n, if_pos rfl]
    rw [hheq]
    refine ⟨?_, p2, ?_, ?_, ?_, ?_, ?_, ?_⟩
    · rw [p1, hlenr, ← hndef, hgdn]
    · -- heap order of the result
      unfold Hp HpN
      intro c hc0 hcn
      rw [p7, hlenr, ← hndef] at hcn
      have hplt : (c - 1) / 2 < c := by omega
      have hvapP : ∀ k, k < n → valAtPos (popI r.1).2 k = valAtPos r.1 k := by
        intro k hk
        unfold valAtPos
        rw [p3, hlenr, ← hndef, getD_take _ _ _ _ hk, p6]
      unfold lessPQ
      rw [p5, hvapP c hcn, hvapP ((c - 1) / 2) (by omega), dLess, sLess]
      have := hHpN c hc0 hcn
      unfold lessPQ at this
      rw [dLess, sLess] at this
      exact this
    · rw [p5, dLess, sLess]
    · intro id
      rw [p6, dValid, sValid]
    · rw [p3, hlenr, ← hndef]
      have hlen2 : r.1.items.length = lenPQ s := hlenr
      have hsplit : r.1.items.take n ++ [s.items.getD 0 0] = r.1.items := by
        have := take_concat_getD r.1.items (by rw [hlen2]; omega)
        rw [hlen2, ← hndef] at this
        rw [← hgdn]
        exact this
      refine List.Perm.trans ?_ (List.Perm.trans dPerm sPerm)
      conv_rhs => rw [← hsplit]
      exact (List.perm_append_singleton _ _).symm
    · rw [p4, dStlen, sStlen]
    · rw [p7, hlenr]

set_option maxHeartbeats 400000 in
/-- `PopValue` on a nonempty well-formed heap-ordered queue returns the
root value `(v, true)` and removes exactly one occurrence of it; the root
value is a minimum, and the rest stays a well-formed heap with the same
values and comparator. -/
theorem popValue_spec {s : PriorityQueue T} (hswo : IsSWO s.less) (hwf : Wf s)
    (hhp : Hp s) (hne : 0 < lenPQ s) :
    (popValue s).1 = some (valAtPos s 0) ∧
    Wf (popValue s).2 ∧ Hp (popValue s).2 ∧
    (popValue s).2.less = s.less ∧
    (∀ id, valId (popValue s).2 id = valId s id) ∧
    List.Perm (s.items.getD 0 0 :: (popValue s).2.items) s.items ∧
    (popValue s).2.store.length = s.store.length ∧
    lenPQ (popValue s).2 = lenPQ s - 1 ∧
    (∀ k, k < lenPQ s → s.less (valAtPos s k) (valAtPos s 0) = false) := by
  obtain ⟨p1, p2, p3, p4, p5, p6, p7, p8⟩ := heapPop_spec hswo hwf hhp hne
  have hres : popValue s = ((heapPop s).1.map (valId (heapPop s).2), (heapPop s).2) := by
    unfold popValue
    rw [if_neg (by omega)]
  rw [hres]
  refine ⟨?_, p2, p3, p4, p5, p6, p7, p8, hp_root_min hswo hhp⟩
  rw [p1]
  show some (valId (heapPop s).2 (s.items.getD 0 0)) = some (valAtPos s 0)
  rw [p5]
  rfl

set_option maxHeartbeats 800000 in
/-- Common final step of `heap.Remove`-style operations: the interface
`Pop` on an intermediate state `t` that holds the removed pointer at the
last position and is heap-ordered below it. -/
theorem remove_finish {s t : PriorityQueue T} {q : Nat} (hq : q < lenPQ s)
    (hwfT : Wf t) (hlent : lenPQ t = lenPQ s)
    (hhpT : ∀ c, 0 < c → c < lenPQ s - 1 → lessPQ t c ((c - 1) / 2) = false)
    (hgdn : t.items.getD (lenPQ s - 1) 0 = s.items.getD q 0)
    (hpermT : List.Perm t.items s.items)
    (hstlenT : t.store.length = s.store.length)
    (hlessT : t.less = s.less)
    (hvalT : ∀ j, valId t j = valId s j) :
    (popI t).1 = some (s.items.getD q 0) ∧ Wf (popI t).2 ∧ Hp (popI t).2 ∧
    (popI t).2.less = s.less ∧ (∀ j, valId (popI t).2 j = valId s j) ∧
    List.Perm (s.items.getD q 0 :: (popI t).2.items) s.items ∧
    (popI t).2.store.length = s.store.length ∧
    lenPQ (popI t).2 = lenPQ s - 1 := by
  obtain ⟨p1, p2, p3, p4, p5, p6, p7⟩ := popI_spec hwfT (by omega)
  have hlen1 : lenPQ t - 1 = lenPQ s - 1 := by omega
  refine ⟨?_, p2, ?_, ?_, ?_, ?_, ?_, ?_⟩
  · rw [p1, hlen1, hgdn]
  · unfold Hp HpN
    intro c hc0 hcn
    rw [p7, hlen1] at hcn
    have hvapP : ∀ k, k < lenPQ s - 1 → valAtPos (popI t).2 k = valAtPos t k := by
      intro k hk
      unfold valAtPos
      rw [p3, hlen1, getD_take _ _ _ _ hk, p6]
    unfold lessPQ
    rw [p5, hvapP c hcn, hvapP _ (show (c - 1) / 2 < lenPQ s - 1 by omega), hlessT]
    have := hhpT c hc0 hcn
    unfold lessPQ at this
    rw [hlessT] at this
    exact this
  · rw [p5, hlessT]
  · intro j
    rw [p6 j, hvalT j]
  · rw [p3, hlen1]
    have hlen2 : t.items.length = lenPQ s := hlent
    have hsplit : t.items.take (lenPQ s - 1) ++ [s.items.getD q 0] = t.items := by
      have := take_concat_getD t.items (by rw [hlen2]; omega)
      rw [hlen2] at this
      rw [← hgdn]
      exact this
    refine List.Perm.trans ?_ hpermT
    conv_rhs => rw [← hsplit]
    exact (List.perm_append_singleton _ _).symm
  · rw [p4, hstlenT]
  · rw [p7, hlent]

set_option maxHeartbeats 1600000 in
/-- `container/heap.Remove` at a valid position `q` of a well-formed
heap-ordered queue removes exactly the pointer stored at `q` and restores
the heap invariant on the rest. -/
theorem heapRemove_spec {s : PriorityQueue T} (hswo : IsSWO s.less) (hwf : Wf s)
    (hhp : Hp s) {q : Nat} (hq : q < lenPQ s) :
    (heapRemove s q).1 = some (s.items.getD q 0) ∧
    Wf (heapRemove s q).2 ∧ Hp (heapRemove s q).2 ∧
    (heapRemove s q).2.less = s.less ∧
    (∀ j, valId (heapRemove s q).2 j = valId s j) ∧
    List.Perm (s.items.getD q 0 :: (heapRemove s q).2.items) s.items ∧
    (heapRemove s q).2.store.length = s.store.length ∧
    lenPQ (heapRemove s q).2 = lenPQ s - 1 := by
  set n := lenPQ s - 1 with hndef
  by_cases hqn : n = q
  · -- removing the last position: plain interface Pop
    have hheq : heapRemove s q = popI s := by
      simp only [heapRemove]
      rw [if_neg (by omega)]
    rw [hheq]
    refine remove_finish hq hwf rfl ?_ ?_ (List.Perm.refl _) rfl rfl (fun j => rfl)
    · intro c hc0 hcn
      exact hhp c hc0 (by omega)
    · have : lenPQ s - 1 = q := by omega
      rw [this]
  · -- removing an interior position: swap with the last, sift, Pop
    have hqltn : q < n := by omega
    have hn1 : 1 ≤ n := by omega
    have hnlt : n < lenPQ s := by omega
    obtain ⟨sPerm, sStlen, sLess, sLen, sValid, sVap⟩ := swapPQ_facts s q n hq hnlt
    have hwf1 : Wf (swapPQ s q n) := swapPQ_wf hwf hq hnlt
    set s1 := swapPQ s q n with hs1def
    have hitems1 : s1.items
        = (s.items.set q (s.items.getD n 0)).set n (s.items.getD q 0) := by
      rw [hs1def]
      unfold swapPQ
      rw [if_pos ⟨hq, hnlt⟩]
    have hgd1 : ∀ k, s1.items.getD k 0
        = if k = n then s.items.getD q 0 else if k = q then s.items.getD n 0
          else s.items.getD k 0 := by
      intro k
      rw [hitems1]
      exact getD_set_set _ _ _ _ hq hnlt
    have hswo1 : IsSWO s1.less := by rw [sLess]; exact hswo
    have h1 : ∀ c, 0 < c → c < n → c ≠ q → (c - 1) / 2 ≠ q →
        lessPQ s1 c ((c - 1) / 2) = false := by
      intro c hc0 hcn hcq hpq
      have hplt : (c - 1) / 2 < c := by omega
      unfold lessPQ
      rw [sLess, sVap c, sVap ((c - 1) / 2)]
      rw [if_neg (by omega), if_neg hcq, if_neg (by omega), if_neg hpq]
      exact hhp c hc0 (by omega)
    have h2 : 0 < q → ∀ c, c < n → (c - 1) / 2 = q →
        lessPQ s1 c ((q - 1) / 2) = false := by
      intro hq0 c hcn hpc
      have hqc : q < c := by omega
      have hgplt : (q - 1) / 2 < q := by omega
      unfold lessPQ
      rw [sLess, sVap c, sVap ((q - 1) / 2)]
      rw [if_neg (by omega), if_neg (by omega), if_neg (by omega), if_neg (by omega)]
      have hedge1 : s.less (valAtPos s q) (valAtPos s ((q - 1) / 2)) = false :=
        hhp q hq0 (by omega)
      have hedge2 : s.less (valAtPos s c) (valAtPos s q) = false := by
        have := hhp c (by omega) (by omega)
        rw [hpc] at this
        exact this
      exact hswo.negTrans hedge1 hedge2
    obtain ⟨dWf, dPerm, dStlen, dLess, dValid, dHigh, dLe, dLt, dUnmoved,
      dEdges, dUpEdge⟩ :=
      downLoopPQ_spec (n := n) n q s1 (by omega) hswo1 hwf1
        (by rw [sLen]; omega) hqltn h1 h2
    set r := downLoopPQ s1 q n with hrdef
    by_cases hmv : r.2 = q
    · -- the element did not move down: sift it up instead
      have hd2 : (downPQ s1 q n).2 = false := by
        show decide (q < r.2) = false
        rw [hmv]
        simp
      have hr1 : r.1 = s1 := dUnmoved hmv
      have hheq : heapRemove s q = popI (upPQ s1 q) := by
        simp only [heapRemove]
        rw [if_pos (show lenPQ s - 1 ≠ q by omega)]
        have hd2b : (downPQ (swapPQ s q (lenPQ s - 1)) q (lenPQ s - 1)).2 = false := hd2
        rw [hd2b, if_pos rfl]
        show popI (upPQ (downLoopPQ s1 q n).1 q) = popI (upPQ s1 q)
        rw [hr1]
      have h1u : ∀ c, 0 < c → c < n → c ≠ q → lessPQ s1 c ((c - 1) / 2) = false := by
        intro c hc0 hcn hcq
        have := dEdges c hc0 hcn (by rw [hmv]; exact hcq)
        rw [hr1] at this
        exact this
      obtain ⟨uWf, uPerm, uStlen, uLess, uValid, uGetD, uHp⟩ :=
        upPQ_spec (n := n) q s1 hswo1 hwf1 (by rw [sLen]; omega) hqltn h1u h2
      rw [hheq]
      refine remove_finish hq uWf ?_ ?_ ?_ ?_ ?_ ?_ ?_
      · unfold lenPQ
        rw [uPerm.length_eq]
        exact sLen
      · intro c hc0 hcn
        exact uHp c hc0 (by omega)
      · rw [show lenPQ s - 1 = n from rfl, uGetD n hqltn, hgd1 n, if_pos rfl]
      · exact uPerm.trans sPerm
      · rw [uStlen, sStlen]
      · rw [uLess, sLess]
      · intro j
        rw [uValid j, sValid j]
    · -- the element moved down: the sifted state is already a heap
      have hqr : q < r.2 := by omega
      have hd2 : (downPQ s1 q n).2 = true := by
        show decide (q < r.2) = true
        simp [hqr]
      have hheq : heapRemove s q = popI r.1 := by
        simp only [heapRemove]
        rw [if_pos (show lenPQ s - 1 ≠ q by omega)]
        have hd2b : (downPQ (swapPQ s q (lenPQ s - 1)) q (lenPQ s - 1)).2 = true := hd2
        rw [hd2b]
        rw [if_neg (by simp)]
        rfl
      have hHpN : ∀ c, 0 < c → c < n → lessPQ r.1 c ((c - 1) / 2) = false := by
        intro c hc0 hcn
        by_cases hcr : c = r.2
        · rw [hcr]
          exact dUpEdge hqr
        · exact dEdges c hc0 hcn hcr
      rw [hheq]
      refine remove_finish hq dWf ?_ ?_ ?_ ?_ ?_ ?_ ?_
      · unfold lenPQ
        rw [dPerm.length_eq]
        exact sLen
      · intro c hc0 hcn
        exact hHpN c hc0 (by omega)
      · rw [show lenPQ s - 1 = n from rfl, dHigh n le_rfl, hgd1 n, if_pos rfl]
      · exact dPerm.trans sPerm
      · rw [dStlen, sStlen]
      · rw [dLess, sLess]
      · intro j
        rw [dValid j, sValid j]

set_option maxHeartbeats 800000 in
/-- `RemoveItem` with a live handle of the queue: the stored index finds
the item's heap position, the bound check passes, and `heap.Remove` takes
exactly that item out, returning `(value, true)`. -/
theorem removeItem_live_spec {s : PriorityQueue T} (hswo : IsSWO s.less)
    (hwf : Wf s) (hhp : Hp s) {q id : Nat} (hq : q < lenPQ s)
    (hid : s.items.getD q 0 = id) :
    (removeItem s id).1 = some (valId s id) ∧
    Wf (removeItem s id).2 ∧ Hp (removeItem s id).2 ∧
    (removeItem s id).2.less = s.less ∧
    (∀ j, valId (removeItem s id).2 j = valId s j) ∧
    List.Perm (id :: (removeItem s id).2.items) s.items ∧
    (removeItem s id).2.store.length = s.store.length ∧
    lenPQ (removeItem s id).2 = lenPQ s - 1 := by
  have hidx : idxId s id = (q : Int) := by
    rw [← hid]
    exact hwf.2.2.1 q hq
  have hres : removeItem s id
      = ((heapRemove s q).1.map (valId (heapRemove s q).2), (heapRemove s q).2) := by
    unfold removeItem removeItemAt
    rw [hidx]
    rw [if_neg (by push_cast; omega)]
    have htn : ((q : Int)).toNat = q := Int.toNat_natCast q
    rw [htn]
  obtain ⟨p1, p2, p3, p4, p5, p6, p7, p8⟩ := heapRemove_spec hswo hwf hhp hq
  rw [hres]
  refine ⟨?_, p2, p3, p4, p5, by rw [← hid]; exact p6, p7, p8⟩
  rw [p1]
  show some (valId (heapRemove s q).2 (s.items.getD q 0)) = some (valId s id)
  rw [p5, hid]

/-- `RemoveItem` on a handle whose stored index fails the bound check
`it.index < 0 || it.index >= pq.Len()` returns `(zero, false)` and leaves
the queue untouched. -/
theorem removeItem_stale {s : PriorityQueue T} {id : Nat}
    (hix : idxId s id < 0 ∨ (lenPQ s : Int) ≤ idxId s id) :
    removeItem s id = (none, s) := by
  unfold removeItem removeItemAt
  rw [if_pos hix]

/-- In a well-formed queue, a handle that is allocated but no longer live
has a negative stored index, so `RemoveItem` on it is the safe no-op. -/
theorem removeItem_removed {s : PriorityQueue T} (hwf : Wf s) {id : Nat}
    (hid : id < s.store.length) (hnot : id ∉ s.items) :
    removeItem s id = (none, s) :=
  removeItem_stale (Or.inl (hwf.2.2.2 id hid hnot))

/-- `New` builds the empty queue (an `Init` over zero elements): it is
well-formed, heap-ordered and empty. -/
theorem new_spec (less : T → T → Bool) :
    new less = { items := [], store := [], less := less } ∧
    Wf (new (T := T) less) ∧ Hp (new (T := T) less) ∧
    lenPQ (new (T := T) less) = 0 := by
  have h : new less = { items := [], store := [], less := less } := by
    unfold new heapInit
    simp [lenPQ]
  refine ⟨h, ?_, ?_, ?_⟩
  · rw [h]
    refine ⟨?_, ?_, ?_, ?_⟩
    · intro id hid
      simp at hid
    · simp
    · intro i hi
      simp at hi
    · intro id hid
      simp at hid
  · rw [h]
    intro c hc0 hcn
    simp [lenPQ] at hcn
  · rw [h]
    rfl

/-- `PushValue` = `PushAndReturnItem` with the handle dropped, restated on
the multiset of stored values. -/
theorem pushValue_spec {s : PriorityQueue T} (v : T) (hswo : IsSWO s.less)
    (hwf : Wf s) (hhp : Hp s) :
    Wf (pushValue s v) ∧ Hp (pushValue s v) ∧ (pushValue s v).less = s.less ∧
    List.Perm (vals (pushValue s v)) (vals s ++ [v]) ∧
    lenPQ (pushValue s v) = lenPQ s + 1 ∧
    (pushValue s v).store.length = s.store.length + 1 ∧
    (∀ id, id < s.store.length → valId (pushValue s v) id = valId s id) ∧
    valId (pushValue s v) s.store.length = v := by
  obtain ⟨q1, q2, q3, q4, q5, q6, q7, q8, q9⟩ := pushAndReturnItem_spec v hswo hwf hhp
  unfold pushValue vals
  refine ⟨q2, q3, q6, ?_, q9, q5, q8, q7⟩
  refine (q4.map _).trans ?_
  rw [List.map_append]
  have h1 : s.items.map (valId (pushAndReturnItem s v).1) = s.items.map (valId s) := by
    apply List.map_congr_left
    intro a ha
    exact q8 a (hwf.1 a ha)
  rw [h1, List.map_singleton, q7]

/-- Pushing a whole sequence with `PushValue` keeps the queue a well-formed
heap and appends the sequence to the stored multiset. -/
theorem pushAllPQ_spec : ∀ (xs : List T) (s : PriorityQueue T), IsSWO s.less →
    Wf s → Hp s →
    Wf (pushAllPQ s xs) ∧ Hp (pushAllPQ s xs) ∧
    (pushAllPQ s xs).less = s.less ∧
    List.Perm (vals (pushAllPQ s xs)) (vals s ++ xs) ∧
    lenPQ (pushAllPQ s xs) = lenPQ s + xs.length ∧
    (pushAllPQ s xs).store.length = s.store.length + xs.length
  | [], s, hswo, hwf, hhp => by
      refine ⟨hwf, hhp, rfl, by simp [pushAllPQ], by simp [pushAllPQ], by
        simp [pushAllPQ]⟩
  | x :: xs, s, hswo, hwf, hhp => by
      obtain ⟨q2, q3, q6, q4, q9, q5, q8, q7⟩ := pushValue_spec x hswo hwf hhp
      have hstep : pushAllPQ s (x :: xs) = pushAllPQ (pushValue s x) xs := rfl
      obtain ⟨w1, w2, w3, w4, w5, w6⟩ :=
        pushAllPQ_spec xs (pushValue s x) (by rw [q6]; exact hswo) q2 q3
      rw [hstep]
      refine ⟨w1, w2, by rw [w3, q6], ?_, ?_, ?_⟩
      · refine w4.trans ?_
        refine (q4.append_right xs).trans ?_
        rw [List.append_assoc, List.singleton_append]
      · rw [w5, q9, List.length_cons]
        omega
      · rw [w6, q5, List.length_cons]
        omega

/-- Draining `k ≤ Len` values keeps the queue a well-formed heap and
decrements `Len` by exactly one per call. -/
theorem drainPQ_len : ∀ (k : Nat) (s : PriorityQueue T), IsSWO s.less → Wf s →
    Hp s → k ≤ lenPQ s →
    Wf (drainPQ k s).2 ∧ Hp (drainPQ k s).2 ∧ (drainPQ k s).2.less = s.less ∧
    lenPQ (drainPQ k s).2 = lenPQ s - k
  | 0, s, _, hwf, hhp, _ => ⟨hwf, hhp, rfl, by simp [drainPQ]⟩
  | k + 1, s, hswo, hwf, hhp, hk => by
      obtain ⟨p1, p2, p3, p4, p5, p6, p7, p8, p9⟩ :=
        popValue_spec hswo hwf hhp (by omega)
      have hstep : drainPQ (k + 1) s
          = ((popValue s).1 :: (drainPQ k (popValue s).2).1,
             (drainPQ k (popValue s).2).2) := rfl
      obtain ⟨w1, w2, w3, w4⟩ :=
        drainPQ_len k (popValue s).2 (by rw [p4]; exact hswo) p2 p3 (by omega)
      rw [hstep]
      exact ⟨w1, w2, by rw [w3, p4], by rw [w4, p8]; omega⟩

/-- Draining a well-formed heap-ordered queue completely yields its stored
values, every one found, in non-increasing priority order. -/
theorem drainPQ_sorted {L : T → T → Bool} (hswo : IsSWO L) :
    ∀ (n : Nat) (s : PriorityQueue T), s.less = L → Wf s → Hp s → lenPQ s = n →
    ∃ E : List T, (drainPQ n s).1 = E.map some ∧
      List.Perm E (vals s) ∧
      E.Pairwise (fun a b => L b a = false) ∧
      lenPQ (drainPQ n s).2 = 0
  | 0, s, hL, hwf, hhp, hlen => by
      refine ⟨[], by simp [drainPQ], ?_, List.Pairwise.nil, by simp [drainPQ, hlen]⟩
      have hnil : s.items = [] := List.length_eq_zero.mp hlen
      unfold vals
      rw [hnil]
      exact List.Perm.refl _
  | n + 1, s, hL, hwf, hhp, hlen => by
      obtain ⟨p1, p2, p3, p4, p5, p6, p7, p8, p9⟩ :=
        popValue_spec (by rw [hL]; exact hswo) hwf hhp (by omega)
      obtain ⟨E, w1, w2, w3, w4⟩ :=
        drainPQ_sorted hswo n (popValue s).2 (by rw [p4, hL]) p2 p3 (by omega)
      have hfun : valId (popValue s).2 = valId s := funext p5
      have hperm2 : List.Perm (valAtPos s 0 :: vals (popValue s).2) (vals s) := by
        have h := p6.map (valId s)
        rw [List.map_cons] at h
        unfold vals
        rw [hfun]
        exact h
      refine ⟨valAtPos s 0 :: E, ?_, ?_, ?_, w4⟩
      · show (popValue s).1 :: (drainPQ n (popValue s).2).1 = _
        rw [p1, w1]
        rfl
      · exact (w2.cons (valAtPos s 0)).trans hperm2
      · refine List.Pairwise.cons ?_ w3
        intro b hb
        have hbv : b ∈ vals s := by
          have hb2 : b ∈ vals (popValue s).2 := w2.mem_iff.mp hb
          exact hperm2.mem_iff.mp (List.mem_cons_of_mem _ hb2)
        simp only [vals] at hbv
        obtain ⟨id, hidmem, hidval⟩ := List.mem_map.mp hbv
        obtain ⟨k, hk, hkeq⟩ := List.getElem_of_mem hidmem
        have hmin := p9 k hk
        have hvap : valAtPos s k = b := by
          unfold valAtPos
          rw [List.getD_eq_getElem s.items 0 hk, hkeq, hidval]
        rw [hvap, hL] at hmin
        exact hmin

/-- Handle bookkeeping of a push sequence: the `k`-th `PushAndReturnItem`
returns arena id `old length + k`, that id stores the `k`-th value, old
ids keep their values, and the heap slice holds exactly the old ids plus
the new consecutive ones. -/
theorem pushAllPQ_handles : ∀ (xs : List T) (s : PriorityQueue T), IsSWO s.less →
    Wf s → Hp s →
    (∀ k, k < xs.length →
      valId (pushAllPQ s xs) (s.store.length + k) = xs.getD k default) ∧
    (∀ id, id < s.store.length → valId (pushAllPQ s xs) id = valId s id) ∧
    List.Perm (pushAllPQ s xs).items
      (s.items ++ List.range' s.store.length xs.length)
  | [], s, _, _, _ => by
      refine ⟨?_, ?_, ?_⟩
      · intro k hk
        simp at hk
      · intro id hid
        rfl
      · simp [pushAllPQ]
  | x :: xs, s, hswo, hwf, hhp => by
      obtain ⟨q1, q2, q3, q4, q5, q6, q7, q8, q9⟩ :=
        pushAndReturnItem_spec x hswo hwf hhp
      have hstep : pushAllPQ s (x :: xs) = pushAllPQ (pushAndReturnItem s x).1 xs :=
        rfl
      obtain ⟨w1, w2, w3⟩ :=
        pushAllPQ_handles xs (pushAndReturnItem s x).1 (by rw [q6]; exact hswo) q2 q3
      rw [hstep]
      refine ⟨?_, ?_, ?_⟩
      · intro k hk
        cases k with
        | zero =>
            rw [Nat.add_zero, w2 s.store.length (by omega), q7,
              List.getD_cons_zero]
        | succ k =>
            have hk2 : k < xs.length := by
              rw [List.length_cons] at hk
              omega
            have hw := w1 k hk2
            rw [q5] at hw
            rw [show s.store.length + (k + 1) = s.store.length + 1 + k by omega,
              hw, List.getD_cons_succ]
      · intro id hid
        rw [w2 id (by omega), q8 id hid]
      · refine w3.trans ?_
        rw [q5]
        refine (q4.append_right _).trans ?_
        rw [List.append_assoc, List.singleton_append, List.length_cons,
          ← List.range'_succ]

/-- Removing a nodup batch of live handles with `RemoveItem`: every call
returns `(value, true)` for its own handle, the removed handles leave the
heap slice and nothing else does, and the queue stays a well-formed heap. -/
theorem removeAllPQ_spec : ∀ (rs : List Nat) (s : PriorityQueue T), IsSWO s.less →
    Wf s → Hp s → rs.Nodup → (∀ r ∈ rs, r ∈ s.items) →
    (removeAllPQ s rs).1 = rs.map (fun r => some (valId s r)) ∧
    Wf (removeAllPQ s rs).2 ∧ Hp (removeAllPQ s rs).2 ∧
    (removeAllPQ s rs).2.less = s.less ∧
    (∀ j, valId (removeAllPQ s rs).2 j = valId s j) ∧
    List.Perm (rs ++ (removeAllPQ s rs).2.items) s.items ∧
    (removeAllPQ s rs).2.store.length = s.store.length ∧
    lenPQ (removeAllPQ s rs).2 = lenPQ s - rs.length
  | [], s, _, hwf, hhp, _, _ =>
      ⟨rfl, hwf, hhp, rfl, fun j => rfl, List.Perm.refl _, rfl, by
        simp [removeAllPQ]⟩
  | r :: rest, s, hswo, hwf, hhp, hnd, hmem => by
      have hr : r ∈ s.items := hmem r (List.mem_cons_self r rest)
      obtain ⟨q, hq, hqe⟩ := List.getElem_of_mem hr
      have hid : s.items.getD q 0 = r := by
        rw [List.getD_eq_getElem s.items 0 hq]
        exact hqe
      obtain ⟨p1, p2, p3, p4, p5, p6, p7, p8⟩ :=
        removeItem_live_spec hswo hwf hhp hq hid
      have hstep : removeAllPQ s (r :: rest)
          = ((removeItem s r).1 :: (removeAllPQ (removeItem s r).2 rest).1,
             (removeAllPQ (removeItem s r).2 rest).2) := rfl
      have hmem2 : ∀ x ∈ rest, x ∈ (removeItem s r).2.items := by
        intro x hx
        have hxr : x ≠ r := by
          intro he
          subst he
          exact (List.nodup_cons.mp hnd).1 hx
        have hc := p6.count_eq x
        rw [List.count_cons_of_ne hxr] at hc
        have hpos : 0 < List.count x s.items :=
          List.count_pos_iff.mpr (hmem x (List.mem_cons_of_mem _ hx))
        exact List.count_pos_iff.mp (by omega)
      obtain ⟨w1, w2, w3, w4, w5, w6, w7, w8⟩ :=
        removeAllPQ_spec rest (removeItem s r).2 (by rw [p4]; exact hswo) p2 p3
          (List.nodup_cons.mp hnd).2 hmem2
      rw [hstep]
      refine ⟨?_, w2, w3, by rw [w4, p4], ?_, ?_, ?_, ?_⟩
      · simp only [List.map_cons]
        rw [p1]
        congr 1
        rw [w1]
        apply List.map_congr_left
        intro a ha
        rw [p5 a]
      · intro j
        rw [w5 j, p5 j]
      · show List.Perm ((r :: rest) ++ (removeAllPQ (removeItem s r).2 rest).2.items)
          s.items
        rw [List.cons_append]
        exact (w6.cons r).trans p6
      · rw [w7, p7]
      · rw [w8, p8, List.length_cons]
        have hlen1 : 0 < lenPQ s := by
          unfold lenPQ
          exact List.length_pos.mpr (List.ne_nil_of_mem hr)
        omega

end PriorityQueue

end GoQueue

/-- C4 (code bug): re-removing an already-removed handle is not a safe no-op.
On the list built from `[1, 2, 3]` (handles `0`, `1`, `2`), `Remove` of
handle `0` succeeds; calling `Remove` with the same, now stale, handle again
returns the value `1` once more (the code has no `found` flag: it returns
only `n.Value`) and, because the stale node's nil `prev`/`next` are taken to
mean "head and tail", wipes `head`/`tail` and decrements `len`: the list ends
with `len = 1` but no reachable node, losing elements `2` and `3`.  This
contradicts `Remove`'s own doc comment ("If n is nil or the node does not
belong to this list, Remove does nothing"). -/
theorem claim_C4_bug_eval :
    (((GoQueue.DllList.new.fromSlice [1, 2, 3]).remove (some 0)).2.len = 2 ∧
      ((GoQueue.DllList.new.fromSlice [1, 2, 3]).remove (some 0)).2.toSlice = [2, 3]) ∧
    ((((GoQueue.DllList.new.fromSlice [1, 2, 3]).remove (some 0)).2.remove (some 0)).1
        = some 1 ∧
      (((GoQueue.DllList.new.fromSlice [1, 2, 3]).remove (some 0)).2.remove (some 0)).2.len
        = 1 ∧
      (((GoQueue.DllList.new.fromSlice [1, 2, 3]).remove (some 0)).2.remove
          (some 0)).2.head = none ∧
      (((GoQueue.DllList.new.fromSlice [1, 2, 3]).remove (some 0)).2.remove
          (some 0)).2.toSlice = []) := by
  decide

/-- C6 (counterexample): the repositioned handle does not stay a valid live
node.  On the list built from `[1, 2]` (handles `0`, `1`), `MoveToFront` of
handle `1` yields the value sequence `[2, 1]` as the claim says, but it does
so by unlinking node `1` and allocating a fresh node (handle `2`) for the
value: handle `1` is no longer among the live nodes, and a subsequent
`Remove` with handle `1` does not succeed — instead of leaving `[1]`, it
wipes `head`/`tail` while `len` stays `1`. -/
theorem claim_C6_counterexample :
    ((GoQueue.DllList.new.fromSlice [1, 2]).moveToFront (some 1)).toSlice = [2, 1] ∧
    ¬ (1 ∈ ((GoQueue.DllList.new.fromSlice [1, 2]).moveToFront (some 1)).liveIds) ∧
    (((GoQueue.DllList.new.fromSlice [1, 2]).moveToFront (some 1)).remove (some 1)).2.len
      = 1 ∧
    (((GoQueue.DllList.new.fromSlice [1, 2]).moveToFront (some 1)).remove
        (some 1)).2.toSlice = [] := by
  decide

/-- C6 (amended): `MoveToFront(n)` is a no-op when `n` is nil, when `n` is
already the head, or when the list has fewer than 2 elements; otherwise it
repositions the node's value so that the list reads `n`'s value followed by
the remaining values in their original order, with unchanged length —
but the value is re-inserted as a freshly allocated node, so the handle `n`
does NOT stay a valid live node of the list (it becomes stale as if
removed); symmetrically for `MoveToBack(n)` with respect to the tail. -/
theorem claim_C6 {T : Type} [Inhabited T] (l : GoQueue.DllList T) (ids : List Nat)
    (hs : GoQueue.DllList.spineOk l ids) :
    (l.moveToFront none = l ∧ l.moveToBack none = l) ∧
    (∀ id, l.head = some id ∨ l.len < 2 → l.moveToFront (some id) = l) ∧
    (∀ id, l.tail = some id ∨ l.len < 2 → l.moveToBack (some id) = l) ∧
    (∀ as bs id, ids = as ++ id :: bs → as ≠ [] →
      GoQueue.DllList.spineOk (l.moveToFront (some id)) (l.nodes.length :: (as ++ bs)) ∧
      GoQueue.DllList.toSlice (l.moveToFront (some id))
        = GoQueue.DllList.valueD l id :: (as ++ bs).map (GoQueue.DllList.valueD l) ∧
      (l.moveToFront (some id)).len = l.len ∧
      id ∉ GoQueue.DllList.liveIds (l.moveToFront (some id))) ∧
    (∀ as bs id, ids = as ++ id :: bs → bs ≠ [] →
      GoQueue.DllList.spineOk (l.moveToBack (some id)) ((as ++ bs) ++ [l.nodes.length]) ∧
      GoQueue.DllList.toSlice (l.moveToBack (some id))
        = (as ++ bs).map (GoQueue.DllList.valueD l) ++ [GoQueue.DllList.valueD l id] ∧
      (l.moveToBack (some id)).len = l.len ∧
      id ∉ GoQueue.DllList.liveIds (l.moveToBack (some id))) := by
  refine ⟨⟨rfl, rfl⟩, ?_, ?_, ?_, ?_⟩
  · intro id h
    simp [GoQueue.DllList.moveToFront, if_pos h]
  · intro id h
    simp [GoQueue.DllList.moveToBack, if_pos h]
  · intro as bs id hsplit hne
    subst hsplit
    exact GoQueue.DllList.moveToFront_spec hs hne
  · intro as bs id hsplit hne
    subst hsplit
    exact GoQueue.DllList.moveToBack_spec hs hne

/-- Witness for C6 at a concrete list `[5, 6, 7]` (handles `0`, `1`, `2`),
moving the middle handle to the front: value order becomes `[6, 5, 7]` and
handle `1` is no longer live. -/
theorem claim_C6_witness :
    GoQueue.DllList.spineOk (GoQueue.DllList.new.fromSlice [5, 6, 7]) [0, 1, 2] ∧
    GoQueue.DllList.toSlice
        ((GoQueue.DllList.new.fromSlice [5, 6, 7]).moveToFront (some 1)) = [6, 5, 7] ∧
    1 ∉ GoQueue.DllList.liveIds
        ((GoQueue.DllList.new.fromSlice [5, 6, 7]).moveToFront (some 1)) := by
  have h := claim_C6 (GoQueue.DllList.new.fromSlice [5, 6, 7]) [0, 1, 2] (by decide)
  obtain ⟨-, -, -, hmain, -⟩ := h
  have h2 := hmain [0] [2] 1 rfl (by simp)
  refine ⟨by decide, ?_, h2.2.2.2⟩
  rw [h2.2.1]
  decide

/-- C9: pushing a finite sequence with `PushBack` and draining with `PopFront`
returns the sequence in order (FIFO), each pop reporting `found = true`;
draining with `PopBack` instead returns it in reverse order (LIFO). -/
theorem claim_C9 {T : Type} (xs : List T) :
    GoQueue.Deque.drainFront xs.length (GoQueue.Deque.pushAll GoQueue.Deque.new xs)
        = xs.map some ∧
    GoQueue.Deque.drainBack xs.length (GoQueue.Deque.pushAll GoQueue.Deque.new xs)
        = xs.reverse.map some := by
  have hps : GoQueue.Deque.pushAll GoQueue.Deque.new xs = ⟨xs⟩ := by
    have h := GoQueue.Deque.pushAll_new xs
    cases hq : GoQueue.Deque.pushAll GoQueue.Deque.new xs with
    | mk items =>
        rw [hq] at h
        simp only at h
        subst h
        rfl
  rw [hps]
  exact ⟨GoQueue.Deque.drainFront_all xs, GoQueue.Deque.drainBack_all xs⟩

/-- C10: the unsuffixed `Push`, `Pop` and `Peek` methods of the deque are
exact aliases of `PushBack`, `PopBack` and `PeekBack`: on every state they
produce the same `(value, found)` result and the same resulting state. -/
theorem claim_C10 {T : Type} (d : GoQueue.Deque T) (v : T) :
    d.push v = d.pushBack v ∧ d.pop = d.popBack ∧ d.peek = d.peekBack :=
  ⟨rfl, rfl, rfl⟩

/-! ## Concrete comparator used by the priority-queue witnesses -/

/-- The max-priority comparator of the examples: `less(a, b) = a > b`, so a
higher number means higher priority. -/
def natGT : Nat → Nat → Bool := fun a b => decide (b < a)

/-- `natGT` is a strict weak ordering. -/
theorem natGT_swo : GoQueue.PriorityQueue.IsSWO natGT := by
  refine ⟨?_, ?_, ?_⟩
  · intro a
    simp [natGT]
  · intro a b c h1 h2
    simp only [natGT, decide_eq_true_eq] at h1 h2 ⊢
    omega
  · intro a b c h1 h2 h3 h4
    simp only [natGT, decide_eq_false_iff_not] at h1 h2 h3 h4 ⊢
    omega

/-- C8: every read or remove on an empty container signals absence and
leaves the container unchanged: `PopValue` and `Peek` on an empty
`PriorityQueue`, and `PopFront`, `PopBack`, `PeekFront`, `PeekBack` on an
empty `Deque`, each return `(zero, false)` — modelled as `none` — with the
container state untouched (hence still empty). -/
theorem claim_C8 {T : Type} [Inhabited T] (s : GoQueue.PriorityQueue T)
    (d : GoQueue.Deque T) (hs : GoQueue.PriorityQueue.lenPQ s = 0)
    (hd : d.items = []) :
    GoQueue.PriorityQueue.popValue s = (none, s) ∧
    GoQueue.PriorityQueue.peek s = (none, s) ∧
    GoQueue.Deque.popFront d = (none, d) ∧
    GoQueue.Deque.popBack d = (none, d) ∧
    GoQueue.Deque.peekFront d = (none, d) ∧
    GoQueue.Deque.peekBack d = (none, d) := by
  have hd0 : d.items.length = 0 := by rw [hd]; rfl
  refine ⟨?_, ?_, ?_, ?_, ?_, ?_⟩
  · unfold GoQueue.PriorityQueue.popValue
    rw [if_pos hs]
  · unfold GoQueue.PriorityQueue.peek
    rw [if_pos hs]
  · unfold GoQueue.Deque.popFront
    rw [if_pos hd0]
  · unfold GoQueue.Deque.popBack
    rw [if_pos hd0]
  · unfold GoQueue.Deque.peekFront
    rw [if_pos hd0]
  · unfold GoQueue.Deque.peekBack
    rw [if_pos hd0]

/-- Witness for C8 at the concrete empty priority queue (with the max
comparator) and the concrete empty deque of naturals. -/
theorem claim_C8_witness :
    GoQueue.PriorityQueue.lenPQ
        (⟨[], [], natGT⟩ : GoQueue.PriorityQueue Nat) = 0 ∧
    (⟨[]⟩ : GoQueue.Deque Nat).items = [] ∧
    GoQueue.PriorityQueue.popValue
        (⟨[], [], natGT⟩ : GoQueue.PriorityQueue Nat)
      = (none, ⟨[], [], natGT⟩) ∧
    GoQueue.Deque.popFront (⟨[]⟩ : GoQueue.Deque Nat) = (none, ⟨[]⟩) :=
  ⟨rfl, rfl, (claim_C8 ⟨[], [], natGT⟩ ⟨[]⟩ rfl rfl).1,
    (claim_C8 ⟨[], [], natGT⟩ ⟨[]⟩ rfl rfl).2.2.1⟩

/-- C1: for every strict-weak-order comparator and every finite sequence of
values, pushing them all with `PushValue` (= `PushAndReturnItem` with the
handle dropped) into a fresh queue and then popping until empty returns
`found = true` each time, the extracted values are a permutation of the
inserted multiset, and the extraction order is non-increasing priority:
for extraction positions `i < j`, `less(extracted[j], extracted[i])` is
false. -/
theorem claim_C1 {T : Type} [Inhabited T] (less : T → T → Bool)
    (hswo : GoQueue.PriorityQueue.IsSWO less) (xs : List T) :
    GoQueue.PriorityQueue.lenPQ
        (GoQueue.PriorityQueue.pushAllPQ (GoQueue.PriorityQueue.new less) xs)
      = xs.length ∧
    ∃ E : List T,
      (GoQueue.PriorityQueue.drainPQ xs.length
          (GoQueue.PriorityQueue.pushAllPQ (GoQueue.PriorityQueue.new less) xs)).1
        = E.map some ∧
      List.Perm E xs ∧
      E.Pairwise (fun a b => less b a = false) ∧
      GoQueue.PriorityQueue.lenPQ
          (GoQueue.PriorityQueue.drainPQ xs.length
            (GoQueue.PriorityQueue.pushAllPQ (GoQueue.PriorityQueue.new less) xs)).2
        = 0 := by
  obtain ⟨hnew, hwf0, hhp0, hlen0⟩ := GoQueue.PriorityQueue.new_spec less
  have hless0 : (GoQueue.PriorityQueue.new (T := T) less).less = less := by
    rw [hnew]
  obtain ⟨w1, w2, w3, w4, w5, w6⟩ :=
    GoQueue.PriorityQueue.pushAllPQ_spec xs (GoQueue.PriorityQueue.new less)
      (by rw [hless0]; exact hswo) hwf0 hhp0
  have hlen : GoQueue.PriorityQueue.lenPQ
      (GoQueue.PriorityQueue.pushAllPQ (GoQueue.PriorityQueue.new less) xs)
      = xs.length := by
    rw [w5, hlen0]
    omega
  obtain ⟨E, d1, d2, d3, d4⟩ :=
    GoQueue.PriorityQueue.drainPQ_sorted hswo xs.length
      (GoQueue.PriorityQueue.pushAllPQ (GoQueue.PriorityQueue.new less) xs)
      (by rw [w3, hless0]) w1 w2 hlen
  refine ⟨hlen, E, d1, ?_, d3, d4⟩
  refine d2.trans (w4.trans ?_)
  have hv0 : GoQueue.PriorityQueue.vals (GoQueue.PriorityQueue.new (T := T) less)
      = [] := by
    rw [hnew]
    rfl
  rw [hv0, List.nil_append]

/-- Witness for C1: the scenario of the spec, priorities `[10, 5, 20]` under
the max comparator. -/
theorem claim_C1_witness :
    GoQueue.PriorityQueue.IsSWO natGT ∧
    (GoQueue.PriorityQueue.lenPQ
        (GoQueue.PriorityQueue.pushAllPQ (GoQueue.PriorityQueue.new natGT)
          [10, 5, 20])
      = [10, 5, 20].length ∧
    ∃ E : List Nat,
      (GoQueue.PriorityQueue.drainPQ [10, 5, 20].length
          (GoQueue.PriorityQueue.pushAllPQ (GoQueue.PriorityQueue.new natGT)
            [10, 5, 20])).1
        = E.map some ∧
      List.Perm E [10, 5, 20] ∧
      E.Pairwise (fun a b => natGT b a = false) ∧
      GoQueue.PriorityQueue.lenPQ
          (GoQueue.PriorityQueue.drainPQ [10, 5, 20].length
            (GoQueue.PriorityQueue.pushAllPQ (GoQueue.PriorityQueue.new natGT)
              [10, 5, 20])).2
        = 0) :=
  ⟨natGT_swo, claim_C1 natGT natGT_swo [10, 5, 20]⟩

open GoQueue.PriorityQueue in
/-- C2: push a sequence with `PushAndReturnItem` (handle of the `k`-th push
is arena id `k`, holding the `k`-th value), remove a nodup subset of the
handles with `RemoveItem` — each call returns that handle's value with
`found = true` — then pop until empty: the extraction is exactly the
multiset complement of the removed values among the inserted ones, still in
non-increasing priority order, and `Len` equals insertions minus
removals/extractions at every point. -/
theorem claim_C2 {T : Type} [Inhabited T] (less : T → T → Bool)
    (hswo : IsSWO less) (xs : List T) (rs : List Nat)
    (hnd : rs.Nodup) (hrb : ∀ r ∈ rs, r < xs.length) :
    (∀ k, k < xs.length →
      valId (pushAllPQ (new less) xs) k = xs.getD k default) ∧
    (removeAllPQ (pushAllPQ (new less) xs) rs).1
      = rs.map (fun r => some (xs.getD r default)) ∧
    (∃ E : List T,
      (drainPQ (xs.length - rs.length)
          (removeAllPQ (pushAllPQ (new less) xs) rs).2).1 = E.map some ∧
      List.Perm (rs.map (fun r => xs.getD r default) ++ E) xs ∧
      E.Pairwise (fun a b => less b a = false)) ∧
    lenPQ (pushAllPQ (new less) xs) = xs.length ∧
    (∀ k, k ≤ rs.length →
      lenPQ (removeAllPQ (pushAllPQ (new less) xs) (rs.take k)).2
        = xs.length - k) ∧
    (∀ k, k ≤ xs.length - rs.length →
      lenPQ (drainPQ k (removeAllPQ (pushAllPQ (new less) xs) rs).2).2
        = xs.length - rs.length - k) ∧
    lenPQ (drainPQ (xs.length - rs.length)
        (removeAllPQ (pushAllPQ (new less) xs) rs).2).2 = 0 := by
  obtain ⟨hnew, hwf0, hhp0, hlen0⟩ := new_spec less
  have hless0 : (new (T := T) less).less = less := by rw [hnew]
  have hswo0 : IsSWO (new (T := T) less).less := by rw [hless0]; exact hswo
  obtain ⟨w1, w2, w3, w4, w5, w6⟩ := pushAllPQ_spec xs (new less) hswo0 hwf0 hhp0
  obtain ⟨h1, h2, h3⟩ := pushAllPQ_handles xs (new less) hswo0 hwf0 hhp0
  set sN := pushAllPQ (new less) xs with hsN
  have hstore0 : (new (T := T) less).store.length = 0 := by rw [hnew]; rfl
  have hitems0 : (new (T := T) less).items = [] := by rw [hnew]
  have hvals0 : vals (new (T := T) less) = [] := by rw [hnew]; rfl
  have hswoN : IsSWO sN.less := by rw [w3, hless0]; exact hswo
  have hlenN : lenPQ sN = xs.length := by rw [w5, hlen0]; omega
  have hpermN : List.Perm sN.items (List.range' 0 xs.length) := by
    have hh := h3
    rw [hitems0, hstore0, List.nil_append] at hh
    exact hh
  have hvalN : ∀ k, k < xs.length → valId sN k = xs.getD k default := by
    intro k hk
    have hh := h1 k hk
    rw [hstore0, Nat.zero_add] at hh
    exact hh
  have hvalsN : List.Perm (vals sN) xs := by
    refine w4.trans ?_
    rw [hvals0, List.nil_append]
  have hliveN : ∀ r ∈ rs, r ∈ sN.items := by
    intro r hrmem
    refine hpermN.mem_iff.mpr ?_
    rw [List.mem_range'_1]
    exact ⟨by omega, by have := hrb r hrmem; omega⟩
  obtain ⟨r1, r2, r3, r4, r5, r6, r7, r8⟩ :=
    removeAllPQ_spec rs sN hswoN w1 w2 hnd hliveN
  have hlenR : lenPQ (removeAllPQ sN rs).2 = xs.length - rs.length := by
    rw [r8, hlenN]
  have hswoR : IsSWO (removeAllPQ sN rs).2.less := by rw [r4]; exact hswoN
  obtain ⟨E, d1, d2, d3, d4⟩ := drainPQ_sorted hswo (xs.length - rs.length)
      (removeAllPQ sN rs).2 (by rw [r4, w3, hless0]) r2 r3 hlenR
  refine ⟨hvalN, ?_, ⟨E, d1, ?_, d3⟩, hlenN, ?_, ?_, d4⟩
  · rw [r1]
    apply List.map_congr_left
    intro a ha
    rw [hvalN a (hrb a ha)]
  · have hfun : valId (removeAllPQ sN rs).2 = valId sN := funext r5
    have hmapped := r6.map (valId sN)
    rw [List.map_append] at hmapped
    have hrsmap : rs.map (valId sN) = rs.map (fun r => xs.getD r default) := by
      apply List.map_congr_left
      intro a ha
      rw [hvalN a (hrb a ha)]
    have hE : List.Perm E ((removeAllPQ sN rs).2.items.map (valId sN)) := by
      refine d2.trans ?_
      unfold vals
      rw [hfun]
    refine List.Perm.trans (List.Perm.append (List.Perm.refl _) hE) ?_
    rw [← hrsmap]
    exact hmapped.trans hvalsN
  · intro k hk
    have hsub : (rs.take k).Sublist rs := List.take_sublist k rs
    obtain ⟨t1, t2, t3, t4, t5, t6, t7, t8⟩ := removeAllPQ_spec (rs.take k) sN
        hswoN w1 w2 (hnd.sublist hsub) (fun r hrm => hliveN r (hsub.subset hrm))
    rw [t8, hlenN, List.length_take]
    omega
  · intro k hk
    obtain ⟨u1, u2, u3, u4⟩ :=
      drainPQ_len k (removeAllPQ sN rs).2 hswoR r2 r3 (by omega)
    rw [u4, hlenR]
